import Mathlib

/-!
# Verification of the starlite client-side (cookie) session backend

The repository excerpt ships only the test suite of the client-side session
backend (`tests/middleware/session/test_client_side_backend.py`); the module
under test (`starlite/middleware/session/client_side.py`) is not part of the
excerpt.  The backend is therefore modelled here from the specification
(`spec.md`, sections 3, 4, 6, 7, 8), keeping the wire-format facts that the
test file pins down: the dumped chunks are slices (of size `CHUNK_SIZE`) of a
text-safe encoding of one blob; the decoded blob ends with a literal AAD tag
followed by the cleartext JSON object `{"expires_at": <timestamp>}`; that
trailing associated data is bound into the authenticated encryption, so
replacing it makes decryption fail with an invalid-tag error.

Bytes are modelled as `List Nat` (each element intended `< 256`); time is a
`Nat` unix timestamp.  Authenticated encryption is modelled symbolically: the
ciphertext is an injective framing of (nonce, plaintext) doubled around the
key and associated data, and decryption accepts a blob if and only if it is
exactly the canonical encryption of its contents under the given key and
associated data.  This gives the ideal-AEAD integrity guarantee the spec
postulates ("no party without `secret` can produce a blob that decrypts
successfully").
-/

namespace StarliteSession

/-! ## Number encodings (length fields, decimal rendering) -/

/-- Little-endian digits of `n` in base `b`, with explicit fuel (`fuel ≥ n`
suffices).  Structural recursion on the fuel keeps the definition
kernel-reducible. -/
def digitsAux (b : Nat) : Nat → Nat → List Nat
  | 0, _ => []
  | _ + 1, 0 => []
  | f + 1, n + 1 => (n + 1) % b :: digitsAux b f ((n + 1) / b)

/-- Little-endian digits of `n` in base `b`. -/
def digitsOf (b n : Nat) : List Nat := digitsAux b n n

/-- Value of a little-endian digit list in base `b`. -/
def valOfDigits (b : Nat) : List Nat → Nat
  | [] => 0
  | d :: ds => d + b * valOfDigits b ds

/-- Decimal rendering of `n` as ASCII bytes, most significant digit first
(`"0"` for zero, no leading zeros otherwise). -/
def natDec (n : Nat) : List Nat :=
  if n = 0 then [48] else (digitsOf 10 n).reverse.map (fun d => d + 48)

/-! ## Text-safe transport encoding

Modelled from the spec: section 6 requires the cookie value to be "a base64
(or equivalent text-safe) encoding" of a chunk of the ciphertext blob.  The
model uses the equivalent lowercase base16 (hex) encoding: two text bytes per
blob byte, alphabet `0-9a-f`. -/

/-- Hex digit (0–15) to its ASCII code, lowercase. -/
def hexChar (n : Nat) : Nat := if n < 10 then 48 + n else 87 + n

/-- ASCII code back to a hex digit; `none` on non-alphabet bytes. -/
def unhexChar (c : Nat) : Option Nat :=
  if 48 ≤ c ∧ c ≤ 57 then some (c - 48)
  else if 97 ≤ c ∧ c ≤ 102 then some (c - 87) else none

/-- Text-safe encoding of a byte string: two hex characters per byte. -/
def hexEncode (bs : List Nat) : List Nat :=
  bs.flatMap (fun b => [hexChar (b / 16), hexChar (b % 16)])

/-- Decoding of the text-safe transport encoding; `none` on odd length or
non-alphabet bytes. -/
def hexDecode : List Nat → Option (List Nat)
  | [] => some []
  | [_] => none
  | c₁ :: c₂ :: rest =>
    match unhexChar c₁, unhexChar c₂, hexDecode rest with
    | some h, some l, some tl => some ((16 * h + l) :: tl)
    | _, _, _ => none

/-! ## Chunker (spec section 4.3) -/

/-- `split blob chunk_size`: partition `blob` into consecutive pieces of at
most `chunk_size` bytes, mirroring the Python slicing
`[blob[i : i + size] for i in range(0, len(blob), size)]`. -/
def split (bs : List Nat) (c : Nat) : List (List Nat) :=
  (List.range ((bs.length + c - 1) / c)).map (fun i => (bs.drop (i * c)).take c)

/-- `join`: concatenate chunks in the given order. -/
def join (chunks : List (List Nat)) : List Nat := chunks.flatten

/-- All elements of a byte string are actual bytes (`< 256`). -/
def bytesValid (bs : List Nat) : Bool := bs.all (fun b => decide (b < 256))

/-! ## Authenticated encryption (spec section 4.2), symbolic model

Modelled from the spec: `starlite/middleware/session/client_side.py` is not in
the excerpt, so the AES-GCM engine is replaced by an ideal authenticated
cipher.  `encrypt` frames nonce and plaintext with self-delimiting length
fields and then repeats them after a region binding the secret and the
associated data; this repetition plays the role of the authentication tag (it
makes any two valid same-length blobs under one key and one associated-data
value differ in at least two far-apart byte positions, the ideal cipher's
tamper-evidence).  `decrypt` accepts a blob iff it is byte-for-byte the
canonical encryption of its parsed contents under the given key and
associated data — the spec's core invariant that no blob not produced with
`secret` decrypts successfully. -/

/-- Self-delimiting length field: base-255 digits terminated by a 255 byte. -/
def encNat (n : Nat) : List Nat := digitsOf 255 n ++ [255]

/-- Length-prefixed byte string. -/
def lpOf (xs : List Nat) : List Nat := encNat xs.length ++ xs

/-- Parse a self-delimiting length field off the front of a byte string. -/
def parseNat (bs : List Nat) : Option (Nat × List Nat) :=
  let ds := bs.takeWhile (fun x => x != 255)
  if ds.length < bs.length then some (valOfDigits 255 ds, bs.drop (ds.length + 1))
  else none

/-- Parse a length-prefixed byte string off the front of a byte string. -/
def parseLp (bs : List Nat) : Option (List Nat × List Nat) :=
  match parseNat bs with
  | none => none
  | some (len, rest) =>
    if len ≤ rest.length then some (rest.take len, rest.drop len) else none

/-- Ideal authenticated encryption of `plaintext` with associated data `aad`
under `secret`, using the caller-supplied fresh `nonce`. -/
def encrypt (secret nonce plaintext aad : List Nat) : List Nat :=
  lpOf nonce ++ lpOf plaintext ++ lpOf secret ++ lpOf aad ++ lpOf nonce ++ lpOf plaintext

/-- Ideal authenticated decryption: succeeds returning the plaintext iff the
blob is exactly the canonical encryption of that plaintext under `secret` and
`aad`; any alteration of blob or associated data is rejected (the invalid-tag
outcome). -/
def decrypt (secret blob aad : List Nat) : Option (List Nat) :=
  match parseLp blob with
  | none => none
  | some (nonce, r₁) =>
    match parseLp r₁ with
    | none => none
    | some (pt, _) =>
      if blob = encrypt secret nonce pt aad then some pt else none

/-! ## AAD wire format (spec section 6, pinned by the tamper test)

The decoded blob ends, in cleartext, with a fixed literal tag followed by the
JSON object `{"expires_at": <unix_timestamp>}`; the JSON object is also the
associated-data input of the authenticated encryption. -/

/-- The fixed associated-data tag, the ASCII bytes of
`"additional_authenticated_data="` (imported by the test as `AAD`). -/
def AAD : List Nat :=
  [97, 100, 100, 105, 116, 105, 111, 110, 97, 108, 95, 97, 117, 116, 104,
   101, 110, 116, 105, 99, 97, 116, 101, 100, 95, 100, 97, 116, 97, 61]

/-- ASCII bytes of the JSON fragment `{"expires_at":`. -/
def expiresLit : List Nat :=
  [123, 34, 101, 120, 112, 105, 114, 101, 115, 95, 97, 116, 34, 58]

/-- ASCII bytes of the JSON object `{"expires_at":<e>}`. -/
def expJson (e : Nat) : List Nat := expiresLit ++ natDec e ++ [125]

/-- Is the byte an ASCII decimal digit? -/
def isDigitByte (c : Nat) : Bool := decide (48 ≤ c ∧ c ≤ 57)

/-- Locate the cleartext associated-data trailer of a decoded blob: the blob
must end with `expiresLit ++ digits ++ "}"` preceded by the `AAD` tag.
Parsing runs from the end of the blob, so it needs no knowledge of the
secret and is insensitive to the encrypted region's content.  Returns the
encrypted region, the associated-data bytes, and the expiry timestamp. -/
def parseTrailer (blob : List Nat) : Option (List Nat × List Nat × Nat) :=
  match blob.reverse with
  | [] => none
  | c :: r =>
    if c = 125 then
      let ds := r.takeWhile isDigitByte
      if ds.length = 0 then none
      else
        let r₂ := r.drop ds.length
        if expiresLit.reverse.isPrefixOf r₂ then
          let r₃ := r₂.drop expiresLit.length
          if AAD.reverse.isPrefixOf r₃ then
            some ((r₃.drop AAD.length).reverse,
                  expiresLit ++ ds.reverse ++ [125],
                  valOfDigits 10 (ds.map (fun c => c - 48)))
          else none
        else none
    else none

/-! ## Codec (spec section 4.1)

Modelled from the spec: the codec "serializes to a compact byte
representation (e.g. JSON UTF-8)" and "must round-trip exactly for
JSON-serializable types" — strings, numbers, booleans, null, nested
mappings/sequences.  The JSON-serializable values are the mutual inductives
below; the byte representation is a compact tagged framing (numbers as
`Int`, since the subsystem never manipulates floating point). -/

mutual
inductive JVal where
  | jnull : JVal
  | jbool (b : Bool) : JVal
  | jnum (i : Int) : JVal
  | jstr (s : List Nat) : JVal
  | jarr (a : JArr) : JVal
  | jobj (o : JObj) : JVal
inductive JArr where
  | anil : JArr
  | acons (v : JVal) (t : JArr) : JArr
inductive JObj where
  | onil : JObj
  | ocons (k : List Nat) (v : JVal) (t : JObj) : JObj
end

mutual
def encJV : JVal → List Nat
  | .jnull => [0]
  | .jbool b => [1, cond b 1 0]
  | .jnum i => [2, if i < 0 then 1 else 0] ++ encNat i.natAbs
  | .jstr s => [3] ++ lpOf s
  | .jarr a => [4] ++ encJA a
  | .jobj o => [5] ++ encJO o
def encJA : JArr → List Nat
  | .anil => [6]
  | .acons v t => [7] ++ encJV v ++ encJA t
def encJO : JObj → List Nat
  | .onil => [8]
  | .ocons k v t => [9] ++ lpOf k ++ encJV v ++ encJO t
end

/-- `encode(session)`: serialize a session mapping to bytes. -/
def encode (s : JObj) : List Nat := encJV (.jobj s)

/- Node count of a value; a fuel bound for the decoder. -/
mutual
def sizeJV : JVal → Nat
  | .jnull => 1
  | .jbool _ => 1
  | .jnum _ => 1
  | .jstr _ => 1
  | .jarr a => 1 + sizeJA a
  | .jobj o => 1 + sizeJO o
def sizeJA : JArr → Nat
  | .anil => 1
  | .acons v t => 1 + sizeJV v + sizeJA t
def sizeJO : JObj → Nat
  | .onil => 1
  | .ocons _ v t => 1 + sizeJV v + sizeJO t
end

/-- Intermediate result of the decoder: a value, a sequence, or a mapping. -/
inductive PRes where
  | pv (x : JVal)
  | pa (x : JArr)
  | po (x : JObj)

/-- Fueled structural decoder; `mode` selects value (0), sequence (1) or
mapping (2).  Structural recursion on the fuel keeps it kernel-reducible. -/
def decodeAux : Nat → Nat → List Nat → Option (PRes × List Nat)
  | 0, _, _ => none
  | f + 1, 0, bs =>
    match bs with
    | 0 :: r => some (.pv .jnull, r)
    | 1 :: b :: r =>
      if b = 0 then some (.pv (.jbool false), r)
      else if b = 1 then some (.pv (.jbool true), r) else none
    | 2 :: s :: r =>
      match parseNat r with
      | some (m, r') =>
        if s = 0 then some (.pv (.jnum (Int.ofNat m)), r')
        else if s = 1 then some (.pv (.jnum (-(Int.ofNat m))), r') else none
      | none => none
    | 3 :: r =>
      match parseLp r with
      | some (s, r') => some (.pv (.jstr s), r')
      | none => none
    | 4 :: r =>
      match decodeAux f 1 r with
      | some (.pa a, r') => some (.pv (.jarr a), r')
      | _ => none
    | 5 :: r =>
      match decodeAux f 2 r with
      | some (.po o, r') => some (.pv (.jobj o), r')
      | _ => none
    | _ => none
  | f + 1, 1, bs =>
    match bs with
    | 6 :: r => some (.pa .anil, r)
    | 7 :: r =>
      match decodeAux f 0 r with
      | some (.pv v, r') =>
        match decodeAux f 1 r' with
        | some (.pa t, r'') => some (.pa (.acons v t), r'')
        | _ => none
      | _ => none
    | _ => none
  | f + 1, 2, bs =>
    match bs with
    | 8 :: r => some (.po .onil, r)
    | 9 :: r =>
      match parseLp r with
      | some (k, r') =>
        match decodeAux f 0 r' with
        | some (.pv v, r'') =>
          match decodeAux f 2 r'' with
          | some (.po t, r₃) => some (.po (.ocons k v t), r₃)
          | _ => none
        | _ => none
      | none => none
    | _ => none
  | _ + 1, _ + 3, _ => none

/-- `decode(bytes)`: parse a session mapping back from bytes; `none` is the
`DecodeError` outcome on malformed input. -/
def decode (bs : List Nat) : Option JObj :=
  match decodeAux (bs.length + 1) 0 bs with
  | some (.pv (.jobj o), []) => some o
  | _ => none

/- String payloads (and mapping keys) hold actual bytes. -/
mutual
def validJV : JVal → Bool
  | .jnull => true
  | .jbool _ => true
  | .jnum _ => true
  | .jstr s => bytesValid s
  | .jarr a => validJA a
  | .jobj o => validJO o
def validJA : JArr → Bool
  | .anil => true
  | .acons v t => validJV v && validJA t
def validJO : JObj → Bool
  | .onil => true
  | .ocons k v t => bytesValid k && validJV v && validJO t
end

/-! ## Configuration (spec sections 3 and 6, bounds pinned by the tests) -/

/-- The configuration-time error of the boundary (spec section 7). -/
inductive ConfigError where
  | improperlyConfigured
deriving DecidableEq

/-- A validated client-side session backend configuration. -/
structure CookieConfig where
  secret : List Nat
  key : List Nat
  maxAge : Nat

/-- Bytes of ciphertext per cookie (imported by the test as `CHUNK_SIZE`). -/
def CHUNK_SIZE : Nat := 4096

/-- Construct a `CookieBackendConfig`: rejects, at configuration time, a
secret whose length is not 16, 24 or 32 bytes, a cookie key shorter than 1 or
longer than 256 characters, and a non-positive max age. -/
def mkCookieBackendConfig (secret key : List Nat) (maxAge : Int) :
    Except ConfigError CookieConfig :=
  if secret.length = 16 ∨ secret.length = 24 ∨ secret.length = 32 then
    if 1 ≤ key.length ∧ key.length ≤ 256 then
      if 0 < maxAge then .ok ⟨secret, key, maxAge.toNat⟩
      else .error .improperlyConfigured
    else .error .improperlyConfigured
  else .error .improperlyConfigured

/-! ## Session backend (spec section 4.4) -/

/-- The tampering error surfaced by `load_data` (the cryptography library's
`InvalidTag`, the spec's `AuthenticationError`). -/
inductive AuthenticationError where
  | invalidTag
deriving DecidableEq

/-- The single encrypted-and-framed blob of a dump: ideal encryption of the
serialized session, with the associated data `{"expires_at": t + max_age}`
bound in, followed by the cleartext AAD tag and associated data. -/
def sessionBlob (cfg : CookieConfig) (s : JObj) (t : Nat) (nonce : List Nat) :
    List Nat :=
  encrypt cfg.secret nonce (encode s) (expJson (t + cfg.maxAge)) ++
    AAD ++ expJson (t + cfg.maxAge)

/-- `dump_data(session)` at time `t` with the freshly drawn `nonce`:
serialize, encrypt with expiry bound into the associated data, transport-encode,
split into cookie-sized chunks. -/
def dump_data (cfg : CookieConfig) (s : JObj) (t : Nat) (nonce : List Nat) :
    List (List Nat) :=
  split (hexEncode (sessionBlob cfg s t nonce)) CHUNK_SIZE

/-- `load_data(chunks)` at time `now`: join, transport-decode, locate the
associated-data trailer, decrypt, check expiry, deserialize.  Absence,
malformed input and expiry quietly produce the empty session; only an
authentication (invalid-tag) failure is surfaced as an error. -/
def load_data (cfg : CookieConfig) (chunks : List (List Nat)) (now : Nat) :
    Except AuthenticationError JObj :=
  match hexDecode (join chunks) with
  | none => .ok .onil
  | some blob =>
    match parseTrailer blob with
    | none => .ok .onil
    | some (encPart, aadBytes, expiry) =>
      match decrypt cfg.secret encPart aadBytes with
      | none => .error .invalidTag
      | some pt =>
        if expiry < now then .ok .onil
        else
          match decode pt with
          | some s => .ok s
          | none => .ok .onil

/-- A single-byte tamper: set byte `p` of chunk `j` to `v`. -/
def setByte (chunks : List (List Nat)) (j p v : Nat) : List (List Nat) :=
  chunks.set j ((chunks.getD j []).set p v)

/-! ## Middleware adapter cookie emission (spec sections 4.4 and 4.5)

Modelled from the spec: the middleware "must set cookies
`{prefix}-0 … {prefix}-(N-1)` with the new values, AND set empty/expired
values for any previously-present `{prefix}-i` where `i >= N`". -/

/-- One outbound `Set-Cookie`: a value, or an empty/expiring cleanup. -/
inductive CookieOut where
  | setVal (name value : List Nat)
  | clear (name : List Nat)
deriving DecidableEq

/-- Cookie name `{key}-{i}` (ASCII hyphen, decimal index). -/
def cookieName (key : List Nat) (i : Nat) : List Nat := key ++ [45] ++ natDec i

/-- Outbound cookie emission: the new chunks become cookies `0 … N-1`; every
previously-present index at or beyond `N` is set to an expiring value. -/
def emitCookies (key : List Nat) (chunks : List (List Nat)) (prevIdx : List Nat) :
    List CookieOut :=
  ((List.range chunks.length).map
    (fun i => CookieOut.setVal (cookieName key i) (chunks.getD i []))) ++
    ((prevIdx.filter (fun i => decide (chunks.length ≤ i))).map
      (fun i => CookieOut.clear (cookieName key i)))

/-! ## Nonce source (spec section 5)

Modelled from the spec: "Nonce generation must use a cryptographically secure
random source and must not be shared/cached across concurrent calls."  The
idealization of such a source is an indexed family of byte strings that never
repeats a draw. -/

/-- An ideal cryptographically secure nonce source: successive draws are byte
strings and are never equal. -/
structure NonceSource where
  draw : Nat → List Nat
  draw_bytes : ∀ i, bytesValid (draw i) = true
  draw_fresh : ∀ i j, i ≠ j → draw i ≠ draw j

/-! ## Locating the AAD tag by search (for the wire-format claims) -/

/-- Does `pat` occur in `bs` at offset `i`? -/
def occursAt (pat bs : List Nat) (i : Nat) : Bool := pat.isPrefixOf (bs.drop i)

/-- Highest offset `≤ n` at which `pat` occurs in `bs`. -/
def lastFindAux (pat bs : List Nat) : Nat → Option Nat
  | 0 => if occursAt pat bs 0 then some 0 else none
  | i + 1 => if occursAt pat bs (i + 1) then some (i + 1) else lastFindAux pat bs i

/-- Offset of the last occurrence of `pat` in `bs` (a search needing no key
material). -/
def lastFind (pat bs : List Nat) : Option Nat := lastFindAux pat bs bs.length

/-- Two byte strings of equal length differing in exactly one position. -/
inductive Diff1 : List Nat → List Nat → Prop
  | head {x y : Nat} {t : List Nat} : x ≠ y → Diff1 (x :: t) (y :: t)
  | tail {x : Nat} {a b : List Nat} : Diff1 a b → Diff1 (x :: a) (x :: b)

/-! ## Concrete sample data for the constructive checks -/

/-- A validated configuration: an all-zero 16-byte secret, key `"a"`,
`max_age` 60 seconds. -/
def sampleConfig : CookieConfig := ⟨List.replicate 16 0, [97], 60⟩

/-- A one-entry session mapping `{"k": "hi"}`. -/
def sampleSession : JObj := .ocons [107] (.jstr [104, 105]) .onil

/-! ## Lemmas: positional digit encodings -/

theorem digitsAux_zero (b f : Nat) : digitsAux b f 0 = [] := by
  cases f <;> rfl

theorem valOfDigits_digitsAux {b : Nat} (hb : 2 ≤ b) :
    ∀ f n, n ≤ f → valOfDigits b (digitsAux b f n) = n := by
  intro f
  induction f with
  | zero =>
    intro n hn
    have : n = 0 := Nat.le_zero.mp hn
    subst this
    simp [digitsAux, valOfDigits]
  | succ f ih =>
    intro n hn
    match n with
    | 0 => simp [digitsAux, valOfDigits]
    | n + 1 =>
      have hdiv : (n + 1) / b ≤ f := by
        have h1 : (n + 1) / b < n + 1 := Nat.div_lt_self (Nat.succ_pos n) hb
        omega
      simp only [digitsAux, valOfDigits, ih _ hdiv]
      exact Nat.mod_add_div (n + 1) b

theorem digitsAux_lt {b : Nat} (hb : 2 ≤ b) :
    ∀ f n, ∀ d ∈ digitsAux b f n, d < b := by
  intro f
  induction f with
  | zero => intro n d hd; simp [digitsAux] at hd
  | succ f ih =>
    intro n d hd
    match n with
    | 0 => simp [digitsAux] at hd
    | n + 1 =>
      simp only [digitsAux, List.mem_cons] at hd
      rcases hd with h | h
      · subst h; exact Nat.mod_lt _ (by omega)
      · exact ih _ _ h

theorem digitsAux_ne_nil {b f n : Nat} (h1 : 1 ≤ n) (h2 : n ≤ f) :
    digitsAux b f n ≠ [] := by
  match f, n with
  | 0, n => omega
  | f + 1, 0 => omega
  | f + 1, n + 1 => simp [digitsAux]

theorem digitsAux_getLast?_ne_zero {b : Nat} (hb : 2 ≤ b) :
    ∀ f n, 1 ≤ n → n ≤ f → (digitsAux b f n).getLast? ≠ some 0 := by
  intro f
  induction f with
  | zero => intro n h1 h2; omega
  | succ f ih =>
    intro n h1 h2
    match n with
    | n + 1 =>
      rw [digitsAux]
      rcases Nat.eq_zero_or_pos ((n + 1) / b) with hq | hq
      · rw [hq, digitsAux_zero]
        have hlt : n + 1 < b := (Nat.div_eq_zero_iff (by omega)).mp hq
        have : (n + 1) % b = n + 1 := Nat.mod_eq_of_lt hlt
        simp [this]
      · have hdiv : (n + 1) / b ≤ f := by
          have h1 : (n + 1) / b < n + 1 := Nat.div_lt_self (Nat.succ_pos n) hb
          omega
        have hne := digitsAux_ne_nil (b := b) hq hdiv
        have := ih ((n + 1) / b) hq hdiv
        rcases hx : digitsAux b f ((n + 1) / b) with _ | ⟨d, tl⟩
        · exact absurd hx hne
        · rw [hx] at this
          simpa using this

theorem digitsOf_val {b n : Nat} (hb : 2 ≤ b) : valOfDigits b (digitsOf b n) = n :=
  valOfDigits_digitsAux hb n n (Nat.le_refl n)

theorem digitsOf_lt {b n : Nat} (hb : 2 ≤ b) : ∀ d ∈ digitsOf b n, d < b :=
  digitsAux_lt hb n n

/-! ## Lemmas: decimal rendering -/

theorem natDec_ne_nil (n : Nat) : natDec n ≠ [] := by
  unfold natDec
  split
  · simp
  · next h =>
    have := digitsAux_ne_nil (b := 10) (f := n) (by omega) (Nat.le_refl n)
    simpa [digitsOf] using this

theorem natDec_mem {n c : Nat} (h : c ∈ natDec n) : 48 ≤ c ∧ c ≤ 57 := by
  unfold natDec at h
  split at h
  · simp at h; omega
  · simp only [List.mem_map, List.mem_reverse] at h
    obtain ⟨d, hd, rfl⟩ := h
    have := digitsOf_lt (b := 10) (by omega) d hd
    omega

theorem natDec_isDigit {n c : Nat} (h : c ∈ natDec n) : isDigitByte c = true := by
  have := natDec_mem h
  simp [isDigitByte]; omega

theorem natDec_val (n : Nat) :
    valOfDigits 10 ((natDec n).reverse.map (fun c => c - 48)) = n := by
  unfold natDec
  split
  · next h => subst h; rfl
  · next h =>
    rw [← List.map_reverse, List.reverse_reverse]
    have : ((digitsOf 10 n).map (fun d => d + 48)).map (fun c => c - 48)
        = digitsOf 10 n := by
      rw [List.map_map]
      have hcong : ∀ d ∈ digitsOf 10 n,
          ((fun c => c - 48) ∘ fun d => d + 48) d = id d := by
        intro d _; simp
      rw [List.map_congr_left hcong, List.map_id]
    rw [this]
    exact digitsOf_val (by omega)

theorem natDec_inj {a b : Nat} (h : natDec a = natDec b) : a = b := by
  have ha := natDec_val a
  have hb := natDec_val b
  rw [h] at ha
  exact ha.symm.trans hb

theorem natDec_bytes (n : Nat) : bytesValid (natDec n) = true := by
  simp only [bytesValid, List.all_eq_true]
  intro c hc
  have := natDec_mem hc
  simp; omega

theorem natDec_head_eq_48 {n : Nat} (h : (natDec n).getD 0 0 = 48) : n = 0 := by
  by_contra hn
  unfold natDec at h
  rw [if_neg hn] at h
  rcases hx : (digitsOf 10 n).reverse with _ | ⟨d, tl⟩
  · have : digitsOf 10 n ≠ [] :=
      digitsAux_ne_nil (b := 10) (f := n) (by omega) (Nat.le_refl n)
    simp at hx
    exact this hx
  · rw [hx] at h
    simp at h
    have hlast : (digitsOf 10 n).getLast? = some d := by
      rw [← List.head?_reverse, hx]
      rfl
    have := digitsAux_getLast?_ne_zero (b := 10) (by omega) n n (by omega) (Nat.le_refl n)
    rw [show (digitsOf 10 n) = digitsAux 10 n n from rfl] at hlast
    rw [hlast] at this
    simp [h] at this

/-! ## Lemmas: the chunker -/

theorem split_nil (c : Nat) : split [] c = [] := by
  have h : (c - 1) / c = 0 := by
    rcases Nat.eq_zero_or_pos c with h | h
    · subst h; rfl
    · exact Nat.div_eq_of_lt (by omega)
  simp [split, h]

theorem split_cons {c : Nat} (hc : 0 < c) {bs : List Nat} (h : bs ≠ []) :
    split bs c = bs.take c :: split (bs.drop c) c := by
  have hlen : 1 ≤ bs.length := List.length_pos.mpr h
  have hcount : (bs.length + c - 1) / c = ((bs.drop c).length + c - 1) / c + 1 := by
    rw [List.length_drop]
    rcases Nat.le_total bs.length c with hle | hle
    · have h3 : (bs.length + c - 1) / c < 2 := Nat.div_lt_of_lt_mul (by omega)
      have h4 : 1 ≤ (bs.length + c - 1) / c := (Nat.le_div_iff_mul_le hc).mpr (by omega)
      have h5a : bs.length - c + c - 1 < c := by omega
      have h5 : (bs.length - c + c - 1) / c = 0 := Nat.div_eq_of_lt h5a
      omega
    · have heq : bs.length + c - 1 = (bs.length - c + c - 1) + c := by omega
      rw [heq, Nat.add_div_right _ hc]
  unfold split
  rw [hcount, List.range_succ_eq_map]
  simp only [List.map_cons, List.map_map]
  congr 1
  · simp
  · apply List.map_congr_left
    intro i _
    simp only [Function.comp_apply]
    rw [List.drop_drop]
    congr 2
    rw [Nat.succ_mul]
    ring

theorem join_split_le {c : Nat} (hc : 0 < c) :
    ∀ (n : Nat) (bs : List Nat), bs.length ≤ n → join (split bs c) = bs := by
  intro n
  induction n with
  | zero =>
    intro bs hb
    have : bs = [] := List.length_eq_zero.mp (Nat.le_zero.mp hb)
    subst this
    simp [split_nil, join]
  | succ n ih =>
    intro bs hb
    by_cases hnil : bs = []
    · subst hnil; simp [split_nil, join]
    · rw [split_cons hc hnil]
      have hlen : 1 ≤ bs.length := List.length_pos.mpr hnil
      have : (bs.drop c).length ≤ n := by
        rw [List.length_drop]; omega
      calc join (bs.take c :: split (bs.drop c) c)
          = bs.take c ++ join (split (bs.drop c) c) := by simp [join]
        _ = bs.take c ++ bs.drop c := by rw [ih _ this]
        _ = bs := List.take_append_drop c bs

theorem join_split {c : Nat} (hc : 0 < c) (bs : List Nat) :
    join (split bs c) = bs :=
  join_split_le hc bs.length bs (Nat.le_refl _)

theorem split_length (bs : List Nat) (c : Nat) :
    (split bs c).length = (bs.length + c - 1) / c := by
  simp [split]

theorem split_piece_le {bs : List Nat} {c : Nat} :
    ∀ piece ∈ split bs c, piece.length ≤ c := by
  intro piece hp
  simp only [split, List.mem_map] at hp
  obtain ⟨i, _, rfl⟩ := hp
  simp [List.length_take]

theorem split_getD {bs : List Nat} {c i : Nat}
    (h : i < (bs.length + c - 1) / c) :
    (split bs c).getD i [] = (bs.drop (i * c)).take c := by
  unfold split
  rw [List.getD_eq_getElem?_getD]
  simp [List.getElem?_map, List.getElem?_range h]

theorem split_piece_full {bs : List Nat} {c i : Nat} (hc : 0 < c)
    (h : i + 1 < (split bs c).length) :
    ((split bs c).getD i []).length = c := by
  rw [split_length] at h
  rw [split_getD (by omega)]
  simp only [List.length_take, List.length_drop]
  have h2 : i + 2 ≤ (bs.length + c - 1) / c := by omega
  have h3 : (i + 2) * c ≤ bs.length + c - 1 := (Nat.le_div_iff_mul_le hc).mp h2
  have hexp : (i + 2) * c = i * c + c + c := by ring
  rw [hexp] at h3
  omega

/-! ## Lemmas: transport encoding -/

theorem hexChar_inj {m n : Nat} (h : hexChar m = hexChar n) : m = n := by
  unfold hexChar at h
  split at h <;> split at h <;> omega

theorem unhexChar_hexChar {n : Nat} (h : n < 16) : unhexChar (hexChar n) = some n := by
  interval_cases n <;> rfl

theorem unhexChar_some {c h : Nat} (hc : unhexChar c = some h) :
    c = hexChar h ∧ h < 16 := by
  unfold unhexChar at hc
  split_ifs at hc with h1 h2
  · injection hc with hc
    subst hc
    unfold hexChar
    constructor
    · split <;> omega
    · omega
  · injection hc with hc
    subst hc
    unfold hexChar
    constructor
    · split <;> omega
    · omega

theorem hexEncode_cons (x : Nat) (t : List Nat) :
    hexEncode (x :: t) = hexChar (x / 16) :: hexChar (x % 16) :: hexEncode t := rfl

theorem hexEncode_append (a b : List Nat) :
    hexEncode (a ++ b) = hexEncode a ++ hexEncode b := by
  simp [hexEncode]

theorem hexEncode_length (bs : List Nat) : (hexEncode bs).length = 2 * bs.length := by
  induction bs with
  | nil => rfl
  | cons x t ih => rw [hexEncode_cons]; simp [ih]; omega

theorem hexDecode_hexEncode : ∀ {bs : List Nat}, bytesValid bs = true →
    hexDecode (hexEncode bs) = some bs := by
  intro bs
  induction bs with
  | nil => intro _; rfl
  | cons x t ih =>
    intro h
    simp only [bytesValid, List.all_cons, Bool.and_eq_true, decide_eq_true_eq] at h
    have hx : x < 256 := h.1
    have ht : bytesValid t = true := by simp [bytesValid, h.2]
    rw [hexEncode_cons, hexDecode, unhexChar_hexChar (by omega),
      unhexChar_hexChar (by omega), ih ht]
    simp [Nat.div_add_mod]

theorem hexEncode_inj : ∀ {a b : List Nat}, hexEncode a = hexEncode b → a = b := by
  intro a
  induction a with
  | nil =>
    intro b h
    cases b with
    | nil => rfl
    | cons y t => simp [hexEncode_cons, hexEncode] at h
  | cons x ta ih =>
    intro b h
    cases b with
    | nil => simp [hexEncode_cons, hexEncode] at h
    | cons y tb =>
      rw [hexEncode_cons, hexEncode_cons] at h
      injection h with h1 h
      injection h with h2 h
      have e1 := hexChar_inj h1
      have e2 := hexChar_inj h2
      have : x = y := by omega
      rw [this, ih h]

theorem hexDecode_canonical :
    ∀ (n : Nat) (t : List Nat), t.length ≤ n → ∀ {bs : List Nat},
      hexDecode t = some bs → t = hexEncode bs ∧ bytesValid bs = true := by
  intro n
  induction n with
  | zero =>
    intro t ht bs h
    have : t = [] := List.length_eq_zero.mp (Nat.le_zero.mp ht)
    subst this
    simp only [hexDecode, Option.some.injEq] at h
    subst h
    exact ⟨rfl, rfl⟩
  | succ n ih =>
    intro t ht bs h
    match t with
    | [] =>
      simp only [hexDecode, Option.some.injEq] at h
      subst h
      exact ⟨rfl, rfl⟩
    | [c] => simp [hexDecode] at h
    | c₁ :: c₂ :: rest =>
      rw [hexDecode] at h
      rcases h₁ : unhexChar c₁ with _ | d₁ <;> rw [h₁] at h
      · exact absurd h (by simp)
      rcases h₂ : unhexChar c₂ with _ | d₂ <;> rw [h₂] at h
      · exact absurd h (by simp)
      rcases h₃ : hexDecode rest with _ | tl <;> rw [h₃] at h
      · exact absurd h (by simp)
      simp only [Option.some.injEq] at h
      subst h
      have hrest : rest.length ≤ n := by
        simp only [List.length_cons] at ht
        omega
      obtain ⟨hre, hrv⟩ := ih rest hrest h₃
      obtain ⟨hc₁, hd₁⟩ := unhexChar_some h₁
      obtain ⟨hc₂, hd₂⟩ := unhexChar_some h₂
      constructor
      · rw [hexEncode_cons, ← hre, hc₁, hc₂]
        have e1 : (16 * d₁ + d₂) / 16 = d₁ := by omega
        have e2 : (16 * d₁ + d₂) % 16 = d₂ := by omega
        rw [e1, e2]
      · simp only [bytesValid, List.all_cons, Bool.and_eq_true, decide_eq_true_eq]
        refine ⟨by omega, ?_⟩
        simpa [bytesValid] using hrv

/-! ## Lemmas: single-byte differences -/

theorem Diff1.length_eq : ∀ {a b : List Nat}, Diff1 a b → a.length = b.length := by
  intro a b h
  induction h with
  | head _ => rfl
  | tail _ ih => simp [ih]

theorem Diff1.ne : ∀ {a b : List Nat}, Diff1 a b → a ≠ b := by
  intro a b h
  induction h with
  | head hxy => simp [hxy]
  | tail _ ih => simp [ih]

theorem diff1_append_left {a b : List Nat} (c : List Nat) (h : Diff1 a b) :
    Diff1 (c ++ a) (c ++ b) := by
  induction c with
  | nil => simpa using h
  | cons x t ih => exact Diff1.tail ih

theorem diff1_append_right {a b : List Nat} (c : List Nat) (h : Diff1 a b) :
    Diff1 (a ++ c) (b ++ c) := by
  induction h with
  | head hxy => exact Diff1.head hxy
  | tail _ ih => exact Diff1.tail ih

theorem diff1_reverse {a b : List Nat} (h : Diff1 a b) :
    Diff1 a.reverse b.reverse := by
  induction h with
  | head hxy =>
    simp only [List.reverse_cons]
    exact diff1_append_left _ (Diff1.head hxy)
  | tail _ ih =>
    simp only [List.reverse_cons]
    exact diff1_append_right _ ih

theorem diff1_of_set : ∀ {a : List Nat} {p v : Nat}, p < a.length →
    v ≠ a.getD p 0 → Diff1 a (a.set p v) := by
  intro a
  induction a with
  | nil => intro p v hp _; simp at hp
  | cons x t ih =>
    intro p v hp hv
    match p with
    | 0 =>
      simp only [List.getD_cons_zero] at hv
      exact Diff1.head (Ne.symm hv)
    | p + 1 =>
      simp only [List.length_cons] at hp
      simp only [List.getD_cons_succ] at hv
      exact Diff1.tail (ih (by omega) hv)

theorem diff1_to_set : ∀ {a b : List Nat}, Diff1 a b →
    ∃ i v, i < a.length ∧ v ≠ a.getD i 0 ∧ b = a.set i v := by
  intro a b h
  induction h with
  | head hxy =>
    next x y t =>
      exact ⟨0, y, by simp, by simpa using (Ne.symm hxy), by simp⟩
  | tail _ ih =>
    next x a' b' _ =>
      obtain ⟨i, v, hi, hv, hb⟩ := ih
      exact ⟨i + 1, v, by simpa using hi, by simpa using hv, by simp [hb]⟩

theorem diff1_append_split : ∀ {a : List Nat} {s u : List Nat},
    Diff1 (a ++ s) u →
    (∃ a', u = a' ++ s ∧ Diff1 a a') ∨ (∃ s', u = a ++ s' ∧ Diff1 s s') := by
  intro a
  induction a with
  | nil =>
    intro s u h
    exact Or.inr ⟨u, rfl, by simpa using h⟩
  | cons x t ih =>
    intro s u h
    cases h with
    | head hxy =>
      next y =>
        exact Or.inl ⟨y :: t, rfl, Diff1.head hxy⟩
    | tail htl =>
      next b' =>
        rcases ih htl with ⟨a', rfl, hd⟩ | ⟨s', rfl, hd⟩
        · exact Or.inl ⟨x :: a', rfl, Diff1.tail hd⟩
        · exact Or.inr ⟨s', rfl, hd⟩

theorem diff1_flatten_set : ∀ {cs : List (List Nat)} {j p v : Nat},
    j < cs.length → p < (cs.getD j []).length → v ≠ (cs.getD j []).getD p 0 →
    Diff1 cs.flatten (setByte cs j p v).flatten := by
  intro cs
  induction cs with
  | nil => intro j p v hj _ _; simp at hj
  | cons c t ih =>
    intro j p v hj hp hv
    match j with
    | 0 =>
      simp only [List.getD_cons_zero] at hp hv
      simp only [setByte, List.getD_cons_zero, List.set_cons_zero,
        List.flatten_cons]
      exact diff1_append_right _ (diff1_of_set hp hv)
    | j + 1 =>
      simp only [List.length_cons] at hj
      simp only [List.getD_cons_succ] at hp hv
      simp only [setByte, List.getD_cons_succ, List.set_cons_succ,
        List.flatten_cons]
      exact diff1_append_left _ (ih (by omega) hp hv)

theorem hex_diff1 : ∀ {a b : List Nat},
    Diff1 (hexEncode a) (hexEncode b) → Diff1 a b := by
  intro a
  induction a with
  | nil =>
    intro b h
    have hl := h.length_eq
    rw [hexEncode_length, hexEncode_length] at hl
    have hb0 : b.length = 0 := by
      simp only [List.length_nil, Nat.mul_zero] at hl
      omega
    have hb : b = [] := List.length_eq_zero.mp hb0
    subst hb
    exact absurd rfl h.ne
  | cons x ta ih =>
    intro b h
    have hl := h.length_eq
    rw [hexEncode_length, hexEncode_length] at hl
    match b with
    | [] => simp at hl
    | y :: tb =>
      rw [hexEncode_cons, hexEncode_cons] at h
      generalize hu1 : hexChar (x / 16) = u1 at h
      generalize hu2 : hexChar (x % 16) = u2 at h
      generalize hw1 : hexChar (y / 16) = w1 at h
      generalize hw2 : hexChar (y % 16) = w2 at h
      generalize hA : hexEncode ta = A at h
      generalize hB : hexEncode tb = B at h
      cases h with
      | head h1 =>
        have e3 : ta = tb := hexEncode_inj (hA.trans hB.symm)
        subst e3
        have hxy : x ≠ y := by
          intro hxy
          exact h1 (by rw [← hu1, ← hw1, hxy])
        exact Diff1.head hxy
      | tail h2 =>
        have e1 : x / 16 = y / 16 := hexChar_inj (hu1.trans hw1.symm)
        cases h2 with
        | head h3 =>
          have e3 : ta = tb := hexEncode_inj (hA.trans hB.symm)
          subst e3
          have hxy : x ≠ y := by
            intro hxy
            exact h3 (by rw [← hu2, ← hw2, hxy])
          exact Diff1.head hxy
        | tail h4 =>
          have e2 : x % 16 = y % 16 := hexChar_inj (hu2.trans hw2.symm)
          have : x = y := by omega
          subst this
          rw [← hA, ← hB] at h4
          exact Diff1.tail (ih h4)

/-! ## Lemmas: length-prefixed framing -/

theorem takeWhile_append_all {p : Nat → Bool} :
    ∀ {a : List Nat} {b : Nat} {z : List Nat}, (∀ x ∈ a, p x = true) →
      p b = false → (a ++ b :: z).takeWhile p = a := by
  intro a
  induction a with
  | nil => intro b z _ hb; simp [List.takeWhile_cons, hb]
  | cons x t ih =>
    intro b z ha hb
    have hx : p x = true := ha x (by simp)
    rw [List.cons_append, List.takeWhile_cons_of_pos hx,
      ih (fun y hy => ha y (by simp [hy])) hb]

theorem digitsOf_ne_255 (n : Nat) : ∀ d ∈ digitsOf 255 n, (d != 255) = true := by
  intro d hd
  have := digitsOf_lt (b := 255) (by omega) d hd
  simp
  omega

theorem parseNat_encNat (n : Nat) (rest : List Nat) :
    parseNat (encNat n ++ rest) = some (n, rest) := by
  unfold parseNat encNat
  rw [List.append_assoc, List.singleton_append]
  rw [takeWhile_append_all (digitsOf_ne_255 n) (by simp)]
  have hlen : (digitsOf 255 n).length < (digitsOf 255 n ++ 255 :: rest).length := by
    simp
  rw [if_pos hlen]
  have hdrop : (digitsOf 255 n ++ 255 :: rest).drop ((digitsOf 255 n).length + 1)
      = rest := by
    have : digitsOf 255 n ++ 255 :: rest = (digitsOf 255 n ++ [255]) ++ rest := by
      simp
    rw [this]
    have hl : (digitsOf 255 n).length + 1 = (digitsOf 255 n ++ [255]).length := by
      simp
    rw [hl, List.drop_left]
  rw [hdrop, digitsOf_val (by omega)]

theorem parseLp_lpOf (xs rest : List Nat) :
    parseLp (lpOf xs ++ rest) = some (xs, rest) := by
  unfold parseLp lpOf
  rw [List.append_assoc]
  simp only [parseNat_encNat]
  have hle : xs.length ≤ (xs ++ rest).length := by simp
  rw [if_pos hle, List.take_left, List.drop_left]

theorem lpOf_append_inj {a b r s : List Nat} (h : lpOf a ++ r = lpOf b ++ s) :
    a = b ∧ r = s := by
  have ha := parseLp_lpOf a r
  have hb := parseLp_lpOf b s
  rw [h, hb] at ha
  simp at ha
  exact ⟨ha.1.symm, ha.2.symm⟩

/-! ## Lemmas: the ideal authenticated cipher -/

theorem decrypt_encrypt (secret nonce pt aad : List Nat) :
    decrypt secret (encrypt secret nonce pt aad) aad = some pt := by
  unfold decrypt
  rw [show encrypt secret nonce pt aad
      = lpOf nonce ++ (lpOf pt ++ (lpOf secret ++ lpOf aad ++ lpOf nonce ++ lpOf pt))
      from by simp [encrypt]]
  simp only [parseLp_lpOf]
  rw [if_pos (by simp [encrypt])]

theorem decrypt_some_eq {secret blob aad pt : List Nat}
    (h : decrypt secret blob aad = some pt) :
    ∃ nonce, blob = encrypt secret nonce pt aad := by
  unfold decrypt at h
  rcases h₁ : parseLp blob with _ | ⟨nonce, r₁⟩
  · simp only [h₁] at h
    exact absurd h (by simp)
  · simp only [h₁] at h
    rcases h₂ : parseLp r₁ with _ | ⟨pt', r₂⟩
    · simp only [h₂] at h
      exact absurd h (by simp)
    · simp only [h₂] at h
      by_cases hc : blob = encrypt secret nonce pt' aad
      · rw [if_pos hc] at h
        injection h with h
        subst h
        exact ⟨nonce, hc⟩
      · rw [if_neg hc] at h
        exact absurd h (by simp)

theorem diff1_dup {a₁ a₂ c : List Nat} (hl : a₁.length = a₂.length)
    (h : Diff1 (a₁ ++ (c ++ a₁)) (a₂ ++ (c ++ a₂))) : False := by
  rcases diff1_append_split h with ⟨a', heq, hd⟩ | ⟨s', heq, hd⟩
  · have hl2 : a₂.length = a'.length := hl ▸ hd.length_eq
    obtain ⟨h1, h2⟩ := List.append_inj heq hl2
    have h3 : a₂ = a₁ := List.append_cancel_left h2
    rw [← h1, h3] at hd
    exact hd.ne rfl
  · obtain ⟨h1, h2⟩ := List.append_inj heq hl.symm
    rw [← h2, h1] at hd
    exact hd.ne rfl

theorem encrypt_shape (secret nonce pt aad : List Nat) :
    encrypt secret nonce pt aad
      = (lpOf nonce ++ lpOf pt) ++
          ((lpOf secret ++ lpOf aad) ++ (lpOf nonce ++ lpOf pt)) := by
  simp [encrypt]

theorem decrypt_diff1_none {secret nonce pt aad X X' : List Nat}
    (hX : X = encrypt secret nonce pt aad) (hd : Diff1 X X') :
    decrypt secret X' aad = none := by
  rcases h : decrypt secret X' aad with _ | pt'
  · rfl
  exfalso
  obtain ⟨nonce', hX'⟩ := decrypt_some_eq h
  have hlen : X.length = X'.length := hd.length_eq
  rw [hX, hX'] at hlen hd
  rw [encrypt_shape, encrypt_shape] at hd hlen
  have hA : (lpOf nonce ++ lpOf pt).length = (lpOf nonce' ++ lpOf pt').length := by
    simp only [List.length_append] at hlen ⊢
    omega
  exact diff1_dup hA hd

theorem decrypt_wrong_aad {secret nonce pt aad aad' : List Nat}
    (hne : aad' ≠ aad) :
    decrypt secret (encrypt secret nonce pt aad) aad' = none := by
  unfold decrypt
  rw [show encrypt secret nonce pt aad
      = lpOf nonce ++ (lpOf pt ++ (lpOf secret ++ lpOf aad ++ lpOf nonce ++ lpOf pt))
      from by simp [encrypt]]
  simp only [parseLp_lpOf]
  rw [if_neg]
  intro hc
  apply hne
  have hc' : lpOf nonce ++ (lpOf pt ++ (lpOf secret ++ (lpOf aad ++ (lpOf nonce ++ lpOf pt))))
      = lpOf nonce ++ (lpOf pt ++ (lpOf secret ++ (lpOf aad' ++ (lpOf nonce ++ lpOf pt)))) := by
    rw [← List.append_assoc, ← List.append_assoc] at hc ⊢
    simpa [encrypt, List.append_assoc] using hc
  have h1 := List.append_cancel_left hc'
  have h2 := List.append_cancel_left h1
  have h3 := List.append_cancel_left h2
  exact (lpOf_append_inj h3).1.symm

/-! ## Lemmas: boolean prefix tests -/

theorem isPrefixOf_append_self : ∀ (m z : List Nat), (m.isPrefixOf (m ++ z)) = true := by
  intro m z
  induction m with
  | nil => simp [List.isPrefixOf]
  | cons a as ih => simp [List.isPrefixOf, ih]

theorem isPrefixOf_diff1_false {m m' : List Nat} (h : Diff1 m m') (z : List Nat) :
    (m.isPrefixOf (m' ++ z)) = false := by
  induction h with
  | head hxy => simp [List.isPrefixOf, hxy]
  | tail _ ih => simp [List.isPrefixOf, ih]

/-! ## Lemmas: locating and parsing the cleartext trailer -/

theorem parseTrailer_shape {X ds : List Nat} (hds : ∀ c ∈ ds, isDigitByte c = true)
    (hne : ds ≠ []) :
    parseTrailer (X ++ (AAD ++ (expiresLit ++ (ds ++ [125]))))
      = some (X, expiresLit ++ (ds ++ [125]),
          valOfDigits 10 (ds.reverse.map (fun c => c - 48))) := by
  have hrev : (X ++ (AAD ++ (expiresLit ++ (ds ++ [125])))).reverse
      = 125 :: (ds.reverse ++ (expiresLit.reverse ++ (AAD.reverse ++ X.reverse))) := by
    simp
  have hds' : ∀ c ∈ ds.reverse, isDigitByte c = true := fun c hc =>
    hds c (List.mem_reverse.mp hc)
  have hlit : expiresLit.reverse
      = 58 :: [34, 116, 97, 95, 115, 101, 114, 105, 112, 120, 101, 34, 123] := rfl
  have htake : (ds.reverse ++ (expiresLit.reverse ++ (AAD.reverse ++ X.reverse))).takeWhile isDigitByte
      = ds.reverse := by
    rw [hlit, List.cons_append]
    exact takeWhile_append_all hds' (by rfl)
  have hdrop : (ds.reverse ++ (expiresLit.reverse ++ (AAD.reverse ++ X.reverse))).drop
      (ds.reverse).length = expiresLit.reverse ++ (AAD.reverse ++ X.reverse) :=
    List.drop_left _ _
  have hlen0 : ¬((ds.reverse).length = 0) := by
    simp only [List.length_reverse]
    intro hc
    exact hne (List.length_eq_zero.mp hc)
  have hpre1 : (expiresLit.reverse.isPrefixOf
      (expiresLit.reverse ++ (AAD.reverse ++ X.reverse))) = true :=
    isPrefixOf_append_self _ _
  have hdrop2 : (expiresLit.reverse ++ (AAD.reverse ++ X.reverse)).drop expiresLit.length
      = AAD.reverse ++ X.reverse := by
    have : expiresLit.length = (expiresLit.reverse).length := by simp
    rw [this, List.drop_left]
  have hpre2 : (AAD.reverse.isPrefixOf (AAD.reverse ++ X.reverse)) = true :=
    isPrefixOf_append_self _ _
  have hdrop3 : (AAD.reverse ++ X.reverse).drop AAD.length = X.reverse := by
    have : AAD.length = (AAD.reverse).length := by simp
    rw [this, List.drop_left]
  unfold parseTrailer
  rw [hrev]
  simp only [htake, hdrop, hdrop2, hdrop3, hpre1, hpre2, if_true, hlen0, if_false,
    List.reverse_reverse, if_pos rfl]
  simp [hlen0]

theorem parseTrailer_expJson (X : List Nat) (e : Nat) :
    parseTrailer (X ++ (AAD ++ expJson e)) = some (X, expJson e, e) := by
  have h := @parseTrailer_shape X (natDec e)
    (fun c hc => natDec_isDigit hc) (natDec_ne_nil e)
  rw [natDec_val] at h
  simpa [expJson, List.append_assoc] using h

theorem parseTrailer_bad_close {X M L ds : List Nat} {w : Nat} (hw : w ≠ 125) :
    parseTrailer (X ++ (M ++ (L ++ (ds ++ [w])))) = none := by
  have hrev : (X ++ (M ++ (L ++ (ds ++ [w])))).reverse
      = w :: (ds.reverse ++ (L.reverse ++ (M.reverse ++ X.reverse))) := by
    simp
  unfold parseTrailer
  rw [hrev]
  simp [hw]

theorem parseTrailer_bad_marker {X M' ds : List Nat}
    (hds : ∀ c ∈ ds, isDigitByte c = true) (hd : Diff1 AAD M') :
    parseTrailer (X ++ (M' ++ (expiresLit ++ (ds ++ [125])))) = none := by
  have hrev : (X ++ (M' ++ (expiresLit ++ (ds ++ [125])))).reverse
      = 125 :: (ds.reverse ++ (expiresLit.reverse ++ (M'.reverse ++ X.reverse))) := by
    simp
  have hds' : ∀ c ∈ ds.reverse, isDigitByte c = true := fun c hc =>
    hds c (List.mem_reverse.mp hc)
  have hlit : expiresLit.reverse
      = 58 :: [34, 116, 97, 95, 115, 101, 114, 105, 112, 120, 101, 34, 123] := rfl
  have htake : (ds.reverse ++ (expiresLit.reverse ++ (M'.reverse ++ X.reverse))).takeWhile isDigitByte
      = ds.reverse := by
    rw [hlit, List.cons_append]
    exact takeWhile_append_all hds' (by rfl)
  have hdrop : (ds.reverse ++ (expiresLit.reverse ++ (M'.reverse ++ X.reverse))).drop
      (ds.reverse).length = expiresLit.reverse ++ (M'.reverse ++ X.reverse) :=
    List.drop_left _ _
  have hpre1 : (expiresLit.reverse.isPrefixOf
      (expiresLit.reverse ++ (M'.reverse ++ X.reverse))) = true :=
    isPrefixOf_append_self _ _
  have hdrop2 : (expiresLit.reverse ++ (M'.reverse ++ X.reverse)).drop expiresLit.length
      = M'.reverse ++ X.reverse := by
    have : expiresLit.length = (expiresLit.reverse).length := by simp
    rw [this, List.drop_left]
  have hpre2 : (AAD.reverse.isPrefixOf (M'.reverse ++ X.reverse)) = false :=
    isPrefixOf_diff1_false (diff1_reverse hd) _
  unfold parseTrailer
  rw [hrev]
  simp only [htake, hdrop, hdrop2, hpre1, hpre2, if_pos rfl]
  simp

theorem parseTrailer_bad_lit {X L' ds : List Nat}
    (hds : ∀ c ∈ ds, isDigitByte c = true) (hd : Diff1 expiresLit L') :
    parseTrailer (X ++ (AAD ++ (L' ++ (ds ++ [125])))) = none := by
  have hrev : (X ++ (AAD ++ (L' ++ (ds ++ [125])))).reverse
      = 125 :: (ds.reverse ++ (L'.reverse ++ (AAD.reverse ++ X.reverse))) := by
    simp
  have hds' : ∀ c ∈ ds.reverse, isDigitByte c = true := fun c hc =>
    hds c (List.mem_reverse.mp hc)
  have hd' : Diff1 expiresLit.reverse L'.reverse := diff1_reverse hd
  have hlit : expiresLit.reverse
      = 58 :: [34, 116, 97, 95, 115, 101, 114, 105, 112, 120, 101, 34, 123] := rfl
  rw [hlit] at hd'
  generalize hL : L'.reverse = Lr at hd' hrev
  unfold parseTrailer
  rw [hrev]
  cases hd' with
  | head hw =>
    next w =>
      by_cases hdig : isDigitByte w = true
      · have hsh : ds.reverse ++ ((w :: [34, 116, 97, 95, 115, 101, 114, 105, 112, 120, 101, 34, 123])
            ++ (AAD.reverse ++ X.reverse))
            = (ds.reverse ++ [w]) ++ (34 :: ([116, 97, 95, 115, 101, 114, 105, 112, 120, 101, 34, 123]
              ++ (AAD.reverse ++ X.reverse))) := by
          simp
        have hall : ∀ c ∈ ds.reverse ++ [w], isDigitByte c = true := by
          intro c hc
          rcases List.mem_append.mp hc with h | h
          · exact hds' c h
          · simp at h; subst h; exact hdig
        have htake : (ds.reverse ++ ((w :: [34, 116, 97, 95, 115, 101, 114, 105, 112, 120, 101, 34, 123])
            ++ (AAD.reverse ++ X.reverse))).takeWhile isDigitByte
            = ds.reverse ++ [w] := by
          rw [hsh]
          exact takeWhile_append_all hall (by rfl)
        have hdrop : (ds.reverse ++ ((w :: [34, 116, 97, 95, 115, 101, 114, 105, 112, 120, 101, 34, 123])
            ++ (AAD.reverse ++ X.reverse))).drop (ds.reverse ++ [w]).length
            = 34 :: ([116, 97, 95, 115, 101, 114, 105, 112, 120, 101, 34, 123]
              ++ (AAD.reverse ++ X.reverse)) := by
          rw [hsh]
          exact List.drop_left _ _
        have hpre : (expiresLit.reverse.isPrefixOf
            (34 :: ([116, 97, 95, 115, 101, 114, 105, 112, 120, 101, 34, 123]
              ++ (AAD.reverse ++ X.reverse)))) = false := by
          rw [hlit]
          simp [List.isPrefixOf]
        simp only [htake, hdrop, hpre, if_pos rfl, Bool.false_eq_true, if_false]
        simp
      · have hdig' : isDigitByte w = false := by
          cases hx : isDigitByte w
          · rfl
          · exact absurd hx hdig
        have hsh : ds.reverse ++ ((w :: [34, 116, 97, 95, 115, 101, 114, 105, 112, 120, 101, 34, 123])
            ++ (AAD.reverse ++ X.reverse))
            = ds.reverse ++ (w :: ([34, 116, 97, 95, 115, 101, 114, 105, 112, 120, 101, 34, 123]
              ++ (AAD.reverse ++ X.reverse))) := by
          simp
        have htake : (ds.reverse ++ ((w :: [34, 116, 97, 95, 115, 101, 114, 105, 112, 120, 101, 34, 123])
            ++ (AAD.reverse ++ X.reverse))).takeWhile isDigitByte = ds.reverse := by
          rw [hsh]
          exact takeWhile_append_all hds' hdig'
        have hdrop : (ds.reverse ++ ((w :: [34, 116, 97, 95, 115, 101, 114, 105, 112, 120, 101, 34, 123])
            ++ (AAD.reverse ++ X.reverse))).drop (ds.reverse).length
            = w :: ([34, 116, 97, 95, 115, 101, 114, 105, 112, 120, 101, 34, 123]
              ++ (AAD.reverse ++ X.reverse)) := by
          rw [hsh]
          exact List.drop_left _ _
        have hpre : (expiresLit.reverse.isPrefixOf
            (w :: ([34, 116, 97, 95, 115, 101, 114, 105, 112, 120, 101, 34, 123]
              ++ (AAD.reverse ++ X.reverse)))) = false := by
          rw [hlit]
          simp only [List.isPrefixOf, Bool.and_eq_false_iff]
          left
          simp
          omega
        simp only [htake, hdrop, hpre, if_pos rfl, Bool.false_eq_true, if_false]
        simp
  | tail hd2 =>
    next t' =>
      have htake : (ds.reverse ++ ((58 :: t') ++ (AAD.reverse ++ X.reverse))).takeWhile isDigitByte
          = ds.reverse := by
        rw [show ds.reverse ++ ((58 :: t') ++ (AAD.reverse ++ X.reverse))
            = ds.reverse ++ (58 :: (t' ++ (AAD.reverse ++ X.reverse))) from by simp]
        exact takeWhile_append_all hds' (by rfl)
      have hdrop : (ds.reverse ++ ((58 :: t') ++ (AAD.reverse ++ X.reverse))).drop
          (ds.reverse).length = (58 :: t') ++ (AAD.reverse ++ X.reverse) :=
        List.drop_left _ _
      have hpre : (expiresLit.reverse.isPrefixOf ((58 :: t') ++ (AAD.reverse ++ X.reverse))) = false := by
        rw [hlit]
        simp only [List.cons_append, List.isPrefixOf, beq_self_eq_true, Bool.true_and]
        exact isPrefixOf_diff1_false hd2 _
      simp only [htake, hdrop, hpre, if_pos rfl, Bool.false_eq_true, if_false]
      simp

theorem parseTrailer_bad_digits {X ds : List Nat} {i w : Nat}
    (hds : ∀ c ∈ ds, isDigitByte c = true) (hi : i < ds.length)
    (hw : isDigitByte w = false) :
    parseTrailer (X ++ (AAD ++ (expiresLit ++ (ds.set i w ++ [125])))) = none := by
  have hset : ds.set i w = ds.take i ++ w :: ds.drop (i + 1) :=
    List.set_eq_take_cons_drop w hi
  have hrev : (X ++ (AAD ++ (expiresLit ++ (ds.set i w ++ [125])))).reverse
      = 125 :: ((ds.drop (i + 1)).reverse
          ++ (w :: ((ds.take i).reverse ++ (expiresLit.reverse ++ (AAD.reverse ++ X.reverse))))) := by
    rw [hset]
    simp
  have hds1 : ∀ c ∈ (ds.drop (i + 1)).reverse, isDigitByte c = true := by
    intro c hc
    exact hds c (List.mem_of_mem_drop (List.mem_reverse.mp hc))
  have htake : ((ds.drop (i + 1)).reverse
      ++ (w :: ((ds.take i).reverse ++ (expiresLit.reverse ++ (AAD.reverse ++ X.reverse))))).takeWhile
        isDigitByte = (ds.drop (i + 1)).reverse :=
    takeWhile_append_all hds1 hw
  have hdrop : ((ds.drop (i + 1)).reverse
      ++ (w :: ((ds.take i).reverse ++ (expiresLit.reverse ++ (AAD.reverse ++ X.reverse))))).drop
        ((ds.drop (i + 1)).reverse).length
      = w :: ((ds.take i).reverse ++ (expiresLit.reverse ++ (AAD.reverse ++ X.reverse))) :=
    List.drop_left _ _
  have hlit : expiresLit.reverse
      = 58 :: [34, 116, 97, 95, 115, 101, 114, 105, 112, 120, 101, 34, 123] := rfl
  have hpre : (expiresLit.reverse.isPrefixOf
      (w :: ((ds.take i).reverse ++ (expiresLit.reverse ++ (AAD.reverse ++ X.reverse))))) = false := by
    rw [hlit]
    by_cases hw58 : w = 58
    · subst hw58
      simp only [List.isPrefixOf, beq_self_eq_true, Bool.true_and]
      rcases hq : (ds.take i).reverse with _ | ⟨d, q⟩
      · rw [List.nil_append]
        simp [List.isPrefixOf]
      · have hdq : d ∈ ds.take i := by
          rw [← List.mem_reverse, hq]
          simp
        have hdd : isDigitByte d = true := hds d (List.mem_of_mem_take hdq)
        simp only [isDigitByte, decide_eq_true_eq] at hdd
        simp only [List.cons_append, List.isPrefixOf, Bool.and_eq_false_iff]
        left
        rw [beq_eq_false_iff_ne]
        omega
    · simp only [List.isPrefixOf, Bool.and_eq_false_iff]
      left
      rw [beq_eq_false_iff_ne]
      omega
  unfold parseTrailer
  rw [hrev]
  simp only [htake, hdrop, hpre, if_pos rfl, Bool.false_eq_true, if_false]
  simp

theorem parseTrailer_set_digit {X ds : List Nat} {i w : Nat}
    (hds : ∀ c ∈ ds, isDigitByte c = true) (hi : i < ds.length)
    (hw : isDigitByte w = true) :
    parseTrailer (X ++ (AAD ++ (expiresLit ++ (ds.set i w ++ [125]))))
      = some (X, expiresLit ++ (ds.set i w ++ [125]),
          valOfDigits 10 ((ds.set i w).reverse.map (fun c => c - 48))) := by
  apply parseTrailer_shape
  · intro c hc
    rcases List.mem_or_eq_of_mem_set hc with h | h
    · exact hds c h
    · subst h; exact hw
  · intro hc
    have hlen := congrArg List.length hc
    simp only [List.length_set, List.length_nil] at hlen
    omega

/-! ## Lemmas: byte validity of the wire formats -/

theorem bytesValid_append (a b : List Nat) :
    bytesValid (a ++ b) = (bytesValid a && bytesValid b) := by
  simp [bytesValid, List.all_append]

theorem bytesValid_of_mem {bs : List Nat} (h : bytesValid bs = true) :
    ∀ b ∈ bs, b < 256 := by
  intro b hb
  simp only [bytesValid, List.all_eq_true, decide_eq_true_eq] at h
  exact h b hb

theorem encNat_bytes (n : Nat) : bytesValid (encNat n) = true := by
  simp only [encNat, bytesValid, List.all_eq_true, decide_eq_true_eq]
  intro d hd
  rcases List.mem_append.mp hd with h | h
  · have := digitsOf_lt (b := 255) (by omega) d h
    omega
  · simp at h
    omega

theorem lpOf_bytes {xs : List Nat} (h : bytesValid xs = true) :
    bytesValid (lpOf xs) = true := by
  rw [lpOf, bytesValid_append, encNat_bytes, h]
  rfl

theorem expJson_bytes (e : Nat) : bytesValid (expJson e) = true := by
  rw [expJson, bytesValid_append, bytesValid_append, natDec_bytes]
  have h1 : bytesValid expiresLit = true := by decide
  have h2 : bytesValid [125] = true := by decide
  rw [h1, h2]
  rfl

theorem AAD_bytes : bytesValid AAD = true := by decide

mutual
theorem encJV_bytes : ∀ (v : JVal), validJV v = true → bytesValid (encJV v) = true
  | .jnull, _ => by decide
  | .jbool b, _ => by cases b <;> decide
  | .jnum i, _ => by
    rw [encJV, bytesValid_append]
    have h2 : bytesValid [2, if i < 0 then 1 else 0] = true := by
      split <;> decide
    rw [h2, encNat_bytes]
    rfl
  | .jstr s, h => by
    rw [encJV, bytesValid_append]
    have hs : bytesValid s = true := by simpa [validJV] using h
    rw [lpOf_bytes hs]
    rfl
  | .jarr a, h => by
    rw [encJV, bytesValid_append]
    have ha : validJA a = true := by simpa [validJV] using h
    rw [encJA_bytes a ha]
    rfl
  | .jobj o, h => by
    rw [encJV, bytesValid_append]
    have ho : validJO o = true := by simpa [validJV] using h
    rw [encJO_bytes o ho]
    rfl
theorem encJA_bytes : ∀ (a : JArr), validJA a = true → bytesValid (encJA a) = true
  | .anil, _ => by decide
  | .acons v t, h => by
    rw [encJA, bytesValid_append, bytesValid_append]
    simp only [validJA, Bool.and_eq_true] at h
    rw [encJV_bytes v h.1, encJA_bytes t h.2]
    rfl
theorem encJO_bytes : ∀ (o : JObj), validJO o = true → bytesValid (encJO o) = true
  | .onil, _ => by decide
  | .ocons k v t, h => by
    rw [encJO, bytesValid_append, bytesValid_append, bytesValid_append]
    simp only [validJO, Bool.and_eq_true] at h
    rw [lpOf_bytes h.1.1, encJV_bytes v h.1.2, encJO_bytes t h.2]
    rfl
end

theorem encrypt_bytes {secret nonce pt aad : List Nat}
    (hs : bytesValid secret = true) (hn : bytesValid nonce = true)
    (hp : bytesValid pt = true) (ha : bytesValid aad = true) :
    bytesValid (encrypt secret nonce pt aad) = true := by
  rw [encrypt]
  rw [bytesValid_append, bytesValid_append, bytesValid_append, bytesValid_append,
    bytesValid_append]
  rw [lpOf_bytes hs, lpOf_bytes hn, lpOf_bytes hp, lpOf_bytes ha]
  rfl

theorem sessionBlob_bytes {cfg : CookieConfig} {s : JObj} {t : Nat} {nonce : List Nat}
    (hsec : bytesValid cfg.secret = true) (hn : bytesValid nonce = true)
    (hs : validJO s = true) :
    bytesValid (sessionBlob cfg s t nonce) = true := by
  rw [sessionBlob, bytesValid_append, bytesValid_append]
  have hpt : bytesValid (encode s) = true := encJV_bytes _ (by simpa [validJV] using hs)
  rw [encrypt_bytes hsec hn hpt (expJson_bytes _), AAD_bytes, expJson_bytes]
  rfl

/-! ## Lemmas: codec round-trip -/

theorem sizeJV_pos : ∀ (v : JVal), 1 ≤ sizeJV v
  | .jnull => by simp [sizeJV]
  | .jbool _ => by simp [sizeJV]
  | .jnum _ => by simp [sizeJV]
  | .jstr _ => by simp [sizeJV]
  | .jarr _ => by rw [sizeJV]; omega
  | .jobj _ => by rw [sizeJV]; omega

theorem sizeJA_pos : ∀ (a : JArr), 1 ≤ sizeJA a
  | .anil => by simp [sizeJA]
  | .acons _ _ => by rw [sizeJA]; omega

theorem sizeJO_pos : ∀ (o : JObj), 1 ≤ sizeJO o
  | .onil => by simp [sizeJO]
  | .ocons _ _ _ => by rw [sizeJO]; omega

mutual
theorem sizeJV_le : ∀ (v : JVal), sizeJV v ≤ (encJV v).length
  | .jnull => by simp [sizeJV, encJV]
  | .jbool _ => by simp [sizeJV, encJV]
  | .jnum _ => by simp [sizeJV, encJV]
  | .jstr _ => by simp [sizeJV, encJV]
  | .jarr a => by
    have := sizeJA_le a
    rw [sizeJV, encJV]
    simp only [List.length_append, List.length_cons, List.length_nil]
    omega
  | .jobj o => by
    have := sizeJO_le o
    rw [sizeJV, encJV]
    simp only [List.length_append, List.length_cons, List.length_nil]
    omega
theorem sizeJA_le : ∀ (a : JArr), sizeJA a ≤ (encJA a).length
  | .anil => by simp [sizeJA, encJA]
  | .acons v t => by
    have h1 := sizeJV_le v
    have h2 := sizeJA_le t
    rw [sizeJA, encJA]
    simp only [List.length_append, List.length_cons, List.length_nil]
    omega
theorem sizeJO_le : ∀ (o : JObj), sizeJO o ≤ (encJO o).length
  | .onil => by simp [sizeJO, encJO]
  | .ocons k v t => by
    have h1 := sizeJV_le v
    have h2 := sizeJO_le t
    rw [sizeJO, encJO]
    simp only [List.length_append, List.length_cons, List.length_nil]
    omega
end

mutual
theorem decodeAux_encJV : ∀ (v : JVal) (f : Nat) (r : List Nat), sizeJV v ≤ f →
    decodeAux f 0 (encJV v ++ r) = some (.pv v, r)
  | .jnull, f + 1, r, _ => rfl
  | .jbool b, f + 1, r, _ => by cases b <;> rfl
  | .jnum i, f + 1, r, _ => by
    by_cases hi : i < 0
    · rw [encJV, if_pos hi]
      rw [show [2, 1] ++ encNat i.natAbs ++ r = 2 :: 1 :: (encNat i.natAbs ++ r) from by simp]
      rw [decodeAux]
      simp only [parseNat_encNat]
      have h1 : ¬((1 : Nat) = 0) := by omega
      rw [if_neg h1]
      simp only [if_true]
      have : -(Int.ofNat i.natAbs) = i := by
        simp only [Int.ofNat_eq_coe]
        omega
      rw [this]
    · rw [encJV, if_neg hi]
      rw [show [2, 0] ++ encNat i.natAbs ++ r = 2 :: 0 :: (encNat i.natAbs ++ r) from by simp]
      rw [decodeAux]
      simp only [parseNat_encNat, if_true]
      have : Int.ofNat i.natAbs = i := by
        simp only [Int.ofNat_eq_coe]
        omega
      rw [this]
  | .jstr s, f + 1, r, _ => by
    rw [encJV]
    rw [show [3] ++ lpOf s ++ r = 3 :: (lpOf s ++ r) from by simp]
    rw [decodeAux]
    simp only [parseLp_lpOf]
  | .jarr a, f + 1, r, h => by
    rw [encJV]
    rw [show [4] ++ encJA a ++ r = 4 :: (encJA a ++ r) from by simp]
    rw [decodeAux]
    have hf : sizeJA a ≤ f := by
      rw [sizeJV] at h
      omega
    simp only [decodeAux_encJA a f r hf]
  | .jobj o, f + 1, r, h => by
    rw [encJV]
    rw [show [5] ++ encJO o ++ r = 5 :: (encJO o ++ r) from by simp]
    rw [decodeAux]
    have hf : sizeJO o ≤ f := by
      rw [sizeJV] at h
      omega
    simp only [decodeAux_encJO o f r hf]
  | .jnull, 0, _, h => by rw [sizeJV] at h; omega
  | .jbool _, 0, _, h => by rw [sizeJV] at h; omega
  | .jnum _, 0, _, h => by rw [sizeJV] at h; omega
  | .jstr _, 0, _, h => by rw [sizeJV] at h; omega
  | .jarr _, 0, _, h => by rw [sizeJV] at h; omega
  | .jobj _, 0, _, h => by rw [sizeJV] at h; omega
theorem decodeAux_encJA : ∀ (a : JArr) (f : Nat) (r : List Nat), sizeJA a ≤ f →
    decodeAux f 1 (encJA a ++ r) = some (.pa a, r)
  | .anil, f + 1, r, _ => rfl
  | .acons v t, f + 1, r, h => by
    rw [encJA]
    rw [show [7] ++ encJV v ++ encJA t ++ r = 7 :: (encJV v ++ (encJA t ++ r)) from by simp]
    rw [decodeAux]
    rw [sizeJA] at h
    have hv : sizeJV v ≤ f := by
      have := sizeJA_pos t
      omega
    have ht : sizeJA t ≤ f := by
      have := sizeJV_pos v
      omega
    simp only [decodeAux_encJV v f _ hv, decodeAux_encJA t f r ht]
  | .anil, 0, _, h => by rw [sizeJA] at h; omega
  | .acons _ _, 0, _, h => by rw [sizeJA] at h; omega
theorem decodeAux_encJO : ∀ (o : JObj) (f : Nat) (r : List Nat), sizeJO o ≤ f →
    decodeAux f 2 (encJO o ++ r) = some (.po o, r)
  | .onil, f + 1, r, _ => rfl
  | .ocons k v t, f + 1, r, h => by
    rw [encJO]
    rw [show [9] ++ lpOf k ++ encJV v ++ encJO t ++ r
        = 9 :: (lpOf k ++ (encJV v ++ (encJO t ++ r))) from by simp]
    rw [decodeAux]
    simp only [parseLp_lpOf]
    rw [sizeJO] at h
    have hv : sizeJV v ≤ f := by
      have := sizeJO_pos t
      omega
    have ht : sizeJO t ≤ f := by
      have := sizeJV_pos v
      omega
    simp only [decodeAux_encJV v f _ hv, decodeAux_encJO t f r ht]
  | .onil, 0, _, h => by rw [sizeJO] at h; omega
  | .ocons _ _ _, 0, _, h => by rw [sizeJO] at h; omega
end

theorem decode_encode (s : JObj) : decode (encode s) = some s := by
  unfold decode encode
  have hh := decodeAux_encJV (.jobj s) ((encJV (.jobj s)).length + 1) []
    (by have := sizeJV_le (.jobj s); omega)
  rw [List.append_nil] at hh
  simp only [hh]

/-! ## Lemmas: the session backend pipeline -/

theorem dump_join (cfg : CookieConfig) (s : JObj) (t : Nat) (nonce : List Nat) :
    join (dump_data cfg s t nonce) = hexEncode (sessionBlob cfg s t nonce) := by
  rw [dump_data]
  exact join_split (by rw [CHUNK_SIZE]; omega) _

theorem sessionBlob_decomp (cfg : CookieConfig) (s : JObj) (t : Nat) (nonce : List Nat) :
    sessionBlob cfg s t nonce
      = encrypt cfg.secret nonce (encode s) (expJson (t + cfg.maxAge)) ++
          (AAD ++ (expiresLit ++ (natDec (t + cfg.maxAge) ++ [125]))) := by
  simp [sessionBlob, expJson, List.append_assoc]

theorem expJson_assoc (e : Nat) :
    expiresLit ++ (natDec e ++ [125]) = expJson e := by
  simp [expJson]

theorem load_dump {cfg : CookieConfig} {s : JObj} {t : Nat} {nonce : List Nat}
    (hsec : bytesValid cfg.secret = true) (hn : bytesValid nonce = true)
    (hs : validJO s = true) {now : Nat} (hnow : now ≤ t + cfg.maxAge) :
    load_data cfg (dump_data cfg s t nonce) now = .ok s := by
  unfold load_data
  rw [dump_join, hexDecode_hexEncode (sessionBlob_bytes hsec hn hs)]
  have hP : parseTrailer (sessionBlob cfg s t nonce)
      = some (encrypt cfg.secret nonce (encode s) (expJson (t + cfg.maxAge)),
          expJson (t + cfg.maxAge), t + cfg.maxAge) := by
    rw [show sessionBlob cfg s t nonce
        = encrypt cfg.secret nonce (encode s) (expJson (t + cfg.maxAge)) ++
            (AAD ++ expJson (t + cfg.maxAge)) from by simp [sessionBlob]]
    exact parseTrailer_expJson _ _
  simp only [hP, decrypt_encrypt]
  rw [if_neg (by omega), decode_encode]

theorem load_dump_expired {cfg : CookieConfig} {s : JObj} {t : Nat} {nonce : List Nat}
    (hsec : bytesValid cfg.secret = true) (hn : bytesValid nonce = true)
    (hs : validJO s = true) {now : Nat} (hnow : t + cfg.maxAge < now) :
    load_data cfg (dump_data cfg s t nonce) now = .ok .onil := by
  unfold load_data
  rw [dump_join, hexDecode_hexEncode (sessionBlob_bytes hsec hn hs)]
  have hP : parseTrailer (sessionBlob cfg s t nonce)
      = some (encrypt cfg.secret nonce (encode s) (expJson (t + cfg.maxAge)),
          expJson (t + cfg.maxAge), t + cfg.maxAge) := by
    rw [show sessionBlob cfg s t nonce
        = encrypt cfg.secret nonce (encode s) (expJson (t + cfg.maxAge)) ++
            (AAD ++ expJson (t + cfg.maxAge)) from by simp [sessionBlob]]
    exact parseTrailer_expJson _ _
  simp only [hP, decrypt_encrypt]
  rw [if_pos hnow]

theorem load_nil (cfg : CookieConfig) (now : Nat) :
    load_data cfg [] now = .ok .onil := rfl

theorem load_undecodable {cfg : CookieConfig} {chunks : List (List Nat)} {now : Nat}
    (h : hexDecode (join chunks) = none) :
    load_data cfg chunks now = .ok .onil := by
  unfold load_data
  rw [h]

theorem load_no_trailer {cfg : CookieConfig} {chunks : List (List Nat)} {now : Nat}
    {blob : List Nat} (h : hexDecode (join chunks) = some blob)
    (h2 : parseTrailer blob = none) :
    load_data cfg chunks now = .ok .onil := by
  unfold load_data
  rw [h]
  simp only [h2]

theorem load_expired_any {cfg : CookieConfig} {chunks : List (List Nat)}
    {now : Nat} {blob encPart aadBytes : List Nat} {expiry : Nat} {pt : List Nat}
    (h1 : hexDecode (join chunks) = some blob)
    (h2 : parseTrailer blob = some (encPart, aadBytes, expiry))
    (h3 : decrypt cfg.secret encPart aadBytes = some pt)
    (h4 : expiry < now) :
    load_data cfg chunks now = .ok .onil := by
  unfold load_data
  rw [h1]
  simp only [h2, h3]
  rw [if_pos h4]

theorem load_decode_fail {cfg : CookieConfig} {chunks : List (List Nat)}
    {now : Nat} {blob encPart aadBytes : List Nat} {expiry : Nat} {pt : List Nat}
    (h1 : hexDecode (join chunks) = some blob)
    (h2 : parseTrailer blob = some (encPart, aadBytes, expiry))
    (h3 : decrypt cfg.secret encPart aadBytes = some pt)
    (h4 : ¬ expiry < now) (h5 : decode pt = none) :
    load_data cfg chunks now = .ok .onil := by
  unfold load_data
  rw [h1]
  simp only [h2, h3]
  rw [if_neg h4]
  simp only [h5]

theorem load_error_iff (cfg : CookieConfig) (chunks : List (List Nat)) (now : Nat) :
    (∃ err, load_data cfg chunks now = .error err)
      ↔ (∃ blob encPart aadBytes expiry,
          hexDecode (join chunks) = some blob ∧
          parseTrailer blob = some (encPart, aadBytes, expiry) ∧
          decrypt cfg.secret encPart aadBytes = none) := by
  unfold load_data
  rcases h₁ : hexDecode (join chunks) with _ | blob
  · simp
  rcases h₂ : parseTrailer blob with _ | ⟨encPart, aadBytes, expiry⟩
  · simp [h₂]
  simp only [h₂]
  rcases h₃ : decrypt cfg.secret encPart aadBytes with _ | pt
  · simp only [h₃]
    constructor
    · intro _
      exact ⟨blob, encPart, aadBytes, expiry, rfl, h₂, h₃⟩
    · intro _
      exact ⟨.invalidTag, by trivial⟩
  · simp only [h₃]
    constructor
    · intro ⟨err, herr⟩
      split at herr
      · exact absurd herr (by simp)
      · split at herr <;> exact absurd herr (by simp)
    · intro ⟨b', e', a', x', hb, hp, hd⟩
      injection hb with hb
      subst hb
      rw [h₂] at hp
      injection hp with hp
      obtain ⟨rfl, rfl, rfl⟩ : encPart = e' ∧ aadBytes = a' ∧ expiry = x' := by
        have h1 := congrArg Prod.fst hp
        have h2 := congrArg (Prod.fst ∘ Prod.snd) hp
        have h3 := congrArg (Prod.snd ∘ Prod.snd) hp
        exact ⟨h1, h2, h3⟩
      rw [h₃] at hd
      exact absurd hd (by simp)

theorem load_dump_cases {cfg : CookieConfig} {s : JObj} {t : Nat} {nonce : List Nat}
    (hsec : bytesValid cfg.secret = true) (hn : bytesValid nonce = true)
    (hs : validJO s = true) (now : Nat) :
    load_data cfg (dump_data cfg s t nonce) now = .ok s ∨
      load_data cfg (dump_data cfg s t nonce) now = .ok .onil := by
  by_cases h : now ≤ t + cfg.maxAge
  · exact Or.inl (load_dump hsec hn hs h)
  · exact Or.inr (load_dump_expired hsec hn hs (by omega))

theorem join_eq_flatten (cs : List (List Nat)) : join cs = cs.flatten := rfl

/-- Master tamper lemma: a single-byte modification of any chunk of a genuine
dump makes `load_data` either raise the invalid-tag error or return the empty
session — never a session with altered data.  Moreover the quiet outcome
occurs only when the modification destroyed the transport encoding or the
cleartext trailer: whenever the tampered text still decodes and its trailer
still parses, loading raises. -/
theorem load_tampered {cfg : CookieConfig} {s : JObj} {t : Nat} {nonce : List Nat}
    {j p v : Nat}
    (hj : j < (dump_data cfg s t nonce).length)
    (hp : p < ((dump_data cfg s t nonce).getD j []).length)
    (hv : v ≠ ((dump_data cfg s t nonce).getD j []).getD p 0) (now : Nat) :
    load_data cfg (setByte (dump_data cfg s t nonce) j p v) now = .error .invalidTag
    ∨ (load_data cfg (setByte (dump_data cfg s t nonce) j p v) now = .ok .onil
       ∧ ∀ blob', hexDecode (join (setByte (dump_data cfg s t nonce) j p v))
            = some blob' → parseTrailer blob' = none) := by
  have hDiff : Diff1 (join (dump_data cfg s t nonce))
      (join (setByte (dump_data cfg s t nonce) j p v)) := by
    rw [join_eq_flatten, join_eq_flatten]
    exact diff1_flatten_set hj hp hv
  rcases hdec : hexDecode (join (setByte (dump_data cfg s t nonce) j p v))
    with _ | blob'
  · refine Or.inr ⟨load_undecodable hdec, fun blob'' hb => ?_⟩
    exact absurd hb (by simp)
  obtain ⟨htext, hbytes⟩ := hexDecode_canonical _ _ (Nat.le_refl _) hdec
  have hD2 : Diff1 (hexEncode (sessionBlob cfg s t nonce)) (hexEncode blob') := by
    rw [← dump_join, ← htext]
    exact hDiff
  have hBD : Diff1 (sessionBlob cfg s t nonce) blob' := hex_diff1 hD2
  rw [sessionBlob_decomp] at hBD
  rcases diff1_append_split hBD with ⟨X', hb', hdX⟩ | ⟨s₁, hb', hd1⟩
  · -- the difference lies in the encrypted region: decryption rejects it
    left
    have hP : parseTrailer blob'
        = some (X', expiresLit ++ (natDec (t + cfg.maxAge) ++ [125]),
            valOfDigits 10 ((natDec (t + cfg.maxAge)).reverse.map (fun c => c - 48))) := by
      rw [hb']
      exact parseTrailer_shape (fun c hc => natDec_isDigit hc) (natDec_ne_nil _)
    rw [natDec_val] at hP
    have hdecr : decrypt cfg.secret X' (expJson (t + cfg.maxAge)) = none :=
      decrypt_diff1_none rfl hdX
    unfold load_data
    rw [hdec]
    simp only [hP, expJson_assoc, hdecr]
  rcases diff1_append_split hd1 with ⟨M', hs₁, hdM⟩ | ⟨s₂, hs₁, hd2⟩
  · -- the difference lies in the AAD tag: the trailer is no longer located
    right
    have hP : parseTrailer blob' = none := by
      rw [hb', hs₁]
      exact parseTrailer_bad_marker (fun c hc => natDec_isDigit hc) hdM
    refine ⟨load_no_trailer hdec hP, fun blob'' hb => ?_⟩
    injection hb with hb
    rw [← hb]
    exact hP
  rcases diff1_append_split hd2 with ⟨L', hs₂, hdL⟩ | ⟨s₃, hs₂, hd3⟩
  · -- the difference lies in the JSON literal: the trailer is malformed
    right
    have hP : parseTrailer blob' = none := by
      rw [hb', hs₁, hs₂]
      exact parseTrailer_bad_lit (fun c hc => natDec_isDigit hc) hdL
    refine ⟨load_no_trailer hdec hP, fun blob'' hb => ?_⟩
    injection hb with hb
    rw [← hb]
    exact hP
  rcases diff1_append_split hd3 with ⟨ds', hs₃, hdD⟩ | ⟨s₄, hs₃, hd4⟩
  · -- the difference lies in the expiry digits
    obtain ⟨i, w, hi, hwne, rfl⟩ := diff1_to_set hdD
    by_cases hdig : isDigitByte w = true
    · -- still a digit string: the associated data changed, decryption rejects
      left
      have hP : parseTrailer blob'
          = some (encrypt cfg.secret nonce (encode s) (expJson (t + cfg.maxAge)),
              expiresLit ++ ((natDec (t + cfg.maxAge)).set i w ++ [125]),
              valOfDigits 10 (((natDec (t + cfg.maxAge)).set i w).reverse.map
                (fun c => c - 48))) := by
        rw [hb', hs₁, hs₂, hs₃]
        exact parseTrailer_set_digit (fun c hc => natDec_isDigit hc) hi hdig
      have hne : expiresLit ++ ((natDec (t + cfg.maxAge)).set i w ++ [125])
          ≠ expJson (t + cfg.maxAge) := by
        intro hcon
        rw [expJson] at hcon
        rw [List.append_assoc] at hcon
        have h1 := List.append_cancel_left hcon
        have h2 : (natDec (t + cfg.maxAge)).set i w = natDec (t + cfg.maxAge) :=
          List.append_cancel_right h1
        exact hdD.ne h2.symm
      have hdecr : decrypt cfg.secret
          (encrypt cfg.secret nonce (encode s) (expJson (t + cfg.maxAge)))
          (expiresLit ++ ((natDec (t + cfg.maxAge)).set i w ++ [125])) = none :=
        decrypt_wrong_aad hne
      unfold load_data
      rw [hdec]
      simp only [hP, hdecr]
    · -- a non-digit byte breaks the trailer
      right
      have hdig' : isDigitByte w = false := by
        cases hx : isDigitByte w
        · rfl
        · exact absurd hx hdig
      have hP : parseTrailer blob' = none := by
        rw [hb', hs₁, hs₂, hs₃]
        exact parseTrailer_bad_digits (fun c hc => natDec_isDigit hc) hi hdig'
      refine ⟨load_no_trailer hdec hP, fun blob'' hb => ?_⟩
      injection hb with hb
      rw [← hb]
      exact hP
  · -- the difference lies in the closing brace
    right
    cases hd4 with
    | head hxy =>
      next w =>
        have hP : parseTrailer blob' = none := by
          rw [hb', hs₁, hs₂, hs₃]
          exact parseTrailer_bad_close (Ne.symm hxy)
        refine ⟨load_no_trailer hdec hP, fun blob'' hb => ?_⟩
        injection hb with hb
        rw [← hb]
        exact hP
    | tail hinner => cases hinner

/-- The scenario of the repository's tamper test: the attacker keeps the
encrypted region of a genuine dump, splices in the AAD tag followed by a
fraudulent `{"expires_at": e'}`, re-encodes and re-chunks.  Loading raises the
invalid-tag error. -/
theorem load_aad_replaced {cfg : CookieConfig} {s : JObj} {t : Nat}
    {nonce : List Nat}
    (hsec : bytesValid cfg.secret = true) (hn : bytesValid nonce = true)
    (hs : validJO s = true) {e' : Nat} (hne : e' ≠ t + cfg.maxAge) (now : Nat) :
    load_data cfg
      (split (hexEncode
        (encrypt cfg.secret nonce (encode s) (expJson (t + cfg.maxAge)) ++
          (AAD ++ expJson e'))) CHUNK_SIZE) now = .error .invalidTag := by
  have hbytes : bytesValid
      (encrypt cfg.secret nonce (encode s) (expJson (t + cfg.maxAge)) ++
        (AAD ++ expJson e')) = true := by
    rw [bytesValid_append, bytesValid_append]
    have hpt : bytesValid (encode s) = true :=
      encJV_bytes _ (by simpa [validJV] using hs)
    rw [encrypt_bytes hsec hn hpt (expJson_bytes _), AAD_bytes, expJson_bytes]
    rfl
  have hJ : join (split (hexEncode
      (encrypt cfg.secret nonce (encode s) (expJson (t + cfg.maxAge)) ++
        (AAD ++ expJson e'))) CHUNK_SIZE)
      = hexEncode (encrypt cfg.secret nonce (encode s) (expJson (t + cfg.maxAge)) ++
        (AAD ++ expJson e')) :=
    join_split (by rw [CHUNK_SIZE]; omega) _
  have hP := parseTrailer_expJson
    (encrypt cfg.secret nonce (encode s) (expJson (t + cfg.maxAge))) e'
  have hwrong : expJson e' ≠ expJson (t + cfg.maxAge) := by
    intro hcon
    rw [expJson, expJson, List.append_assoc, List.append_assoc] at hcon
    have h1 := List.append_cancel_left hcon
    have h2 : natDec e' = natDec (t + cfg.maxAge) := List.append_cancel_right h1
    exact hne (natDec_inj h2)
  have hdecr : decrypt cfg.secret
      (encrypt cfg.secret nonce (encode s) (expJson (t + cfg.maxAge)))
      (expJson e') = none := decrypt_wrong_aad hwrong
  unfold load_data
  rw [hJ, hexDecode_hexEncode hbytes]
  simp only [hP, hdecr]

/-- Distinct nonces give distinct dumps (the ciphertext blob embeds its
nonce injectively). -/
theorem dump_nonce_ne {cfg : CookieConfig} {s : JObj} {t : Nat}
    {n₁ n₂ : List Nat} (hne : n₁ ≠ n₂) :
    dump_data cfg s t n₁ ≠ dump_data cfg s t n₂ := by
  intro hcon
  apply hne
  have hJ := congrArg join hcon
  rw [dump_join, dump_join] at hJ
  have hblob : sessionBlob cfg s t n₁ = sessionBlob cfg s t n₂ := hexEncode_inj hJ
  rw [sessionBlob_decomp, sessionBlob_decomp, encrypt_shape, encrypt_shape] at hblob
  simp only [List.append_assoc] at hblob
  exact (lpOf_append_inj hblob).1

/-! ## Lemmas: chunk boundaries respect the transport encoding -/

theorem hexEncode_drop : ∀ (bs : List Nat) (n : Nat),
    (hexEncode bs).drop (2 * n) = hexEncode (bs.drop n) := by
  intro bs
  induction bs with
  | nil => intro n; simp [hexEncode]
  | cons x t ih =>
    intro n
    match n with
    | 0 => simp
    | n + 1 =>
      rw [hexEncode_cons, show 2 * (n + 1) = 2 * n + 1 + 1 from by ring]
      rw [List.drop_succ_cons, List.drop_succ_cons, List.drop_succ_cons]
      exact ih n

theorem hexEncode_take : ∀ (bs : List Nat) (n : Nat),
    (hexEncode bs).take (2 * n) = hexEncode (bs.take n) := by
  intro bs
  induction bs with
  | nil => intro n; simp [hexEncode]
  | cons x t ih =>
    intro n
    match n with
    | 0 => simp [hexEncode]
    | n + 1 =>
      rw [hexEncode_cons, show 2 * (n + 1) = 2 * n + 1 + 1 from by ring]
      rw [List.take_succ_cons, List.take_succ_cons, List.take_succ_cons,
        hexEncode_cons, ih n]

theorem bytesValid_take {bs : List Nat} (h : bytesValid bs = true) (n : Nat) :
    bytesValid (bs.take n) = true := by
  simp only [bytesValid, List.all_eq_true] at h ⊢
  intro b hb
  exact h b (List.mem_of_mem_take hb)

theorem bytesValid_drop {bs : List Nat} (h : bytesValid bs = true) (n : Nat) :
    bytesValid (bs.drop n) = true := by
  simp only [bytesValid, List.all_eq_true] at h ⊢
  intro b hb
  exact h b (List.mem_of_mem_drop hb)

/-- Chunk `i` of a dump is the transport encoding of one 2048-byte slice of
the ciphertext blob (chunk boundaries are byte-length based and respect the
2-characters-per-byte encoding since `CHUNK_SIZE` is even). -/
theorem dump_chunk_eq {cfg : CookieConfig} {s : JObj} {t : Nat} {nonce : List Nat}
    {i : Nat} (hi : i < (dump_data cfg s t nonce).length) :
    (dump_data cfg s t nonce).getD i []
      = hexEncode (((sessionBlob cfg s t nonce).drop (i * 2048)).take 2048) := by
  rw [dump_data] at hi ⊢
  rw [split_length] at hi
  rw [split_getD hi]
  rw [show i * CHUNK_SIZE = 2 * (i * 2048) from by rw [CHUNK_SIZE]; ring]
  rw [show CHUNK_SIZE = 2 * 2048 from rfl]
  rw [hexEncode_drop, hexEncode_take]

/-! ## Lemmas: locating the AAD tag by search -/

theorem isPrefixOf_length_le : ∀ {m z : List Nat}, (m.isPrefixOf z) = true →
    m.length ≤ z.length := by
  intro m
  induction m with
  | nil => intro z _; simp
  | cons a as ih =>
    intro z h
    match z with
    | [] => simp [List.isPrefixOf] at h
    | b :: bs =>
      simp only [List.isPrefixOf, Bool.and_eq_true] at h
      have := ih h.2
      simp only [List.length_cons]
      omega

theorem isPrefixOf_getD : ∀ {m z : List Nat}, (m.isPrefixOf z) = true →
    ∀ {q : Nat}, q < m.length → z.getD q 0 = m.getD q 0 := by
  intro m
  induction m with
  | nil => intro z _ q hq; simp at hq
  | cons a as ih =>
    intro z h q hq
    match z with
    | [] => simp [List.isPrefixOf] at h
    | b :: bs =>
      simp only [List.isPrefixOf, Bool.and_eq_true, beq_iff_eq] at h
      match q with
      | 0 => simp [h.1]
      | q + 1 =>
        simp only [List.getD_cons_succ]
        exact ih h.2 (by simpa using hq)

theorem lastFindAux_eq {pat bs : List Nat} {k : Nat}
    (hk : occursAt pat bs k = true)
    (hmax : ∀ i, k < i → occursAt pat bs i = false) :
    ∀ n, k ≤ n → lastFindAux pat bs n = some k := by
  intro n
  induction n with
  | zero =>
    intro h0
    have : k = 0 := by omega
    subst this
    simp [lastFindAux, hk]
  | succ n ih =>
    intro hkn
    rcases Nat.eq_or_lt_of_le hkn with heq | hlt
    · subst heq
      simp [lastFindAux, hk]
    · rw [lastFindAux, hmax (n + 1) (by omega)]
      simp only [Bool.false_eq_true, if_false]
      exact ih (by omega)

theorem expJson_ne_61 (e : Nat) : ∀ c ∈ expJson e, c ≠ 61 := by
  intro c hc
  rw [expJson] at hc
  rcases List.mem_append.mp hc with h | h
  · rcases List.mem_append.mp h with h2 | h2
    · have hlit : ∀ x ∈ expiresLit, x ≠ 61 := by decide
      exact hlit c h2
    · have := natDec_mem h2
      omega
  · simp at h
    omega

/-- In any byte string of the form `X ++ AAD ++ J` where `J` is a well-formed
expiry object, the last occurrence of the AAD tag is exactly at offset
`X.length`: the tag's closing `=` byte (61) occurs nowhere in `J`. -/
theorem lastFind_AAD (X : List Nat) (e : Nat) :
    lastFind AAD (X ++ (AAD ++ expJson e)) = some X.length := by
  have hocc : occursAt AAD (X ++ (AAD ++ expJson e)) X.length = true := by
    rw [occursAt, List.drop_left]
    exact isPrefixOf_append_self _ _
  have hmax : ∀ i, X.length < i →
      occursAt AAD (X ++ (AAD ++ expJson e)) i = false := by
    intro i hi
    rcases hx : occursAt AAD (X ++ (AAD ++ expJson e)) i with _ | _
    · rfl
    exfalso
    rw [occursAt] at hx
    have hlen := isPrefixOf_length_le hx
    rw [List.length_drop, List.length_append, List.length_append] at hlen
    have hAADlen : AAD.length = 30 := by decide
    have h61 : ((X ++ (AAD ++ expJson e)).drop i).getD 29 0 = AAD.getD 29 0 :=
      isPrefixOf_getD hx (by rw [hAADlen]; omega)
    have hA29 : AAD.getD 29 0 = 61 := by decide
    have hdg : ((X ++ (AAD ++ expJson e)).drop i).getD 29 0
        = (X ++ (AAD ++ expJson e)).getD (i + 29) 0 := by
      rw [List.getD_eq_getElem?_getD, List.getD_eq_getElem?_getD,
        List.getElem?_drop]
    have hrange : X.length + AAD.length ≤ i + 29 := by
      omega
    have hlt : i + 29 < X.length + (AAD.length + (expJson e).length) := by
      omega
    have hmem : (X ++ (AAD ++ expJson e)).getD (i + 29) 0 ∈ expJson e := by
      have hgd : (X ++ (AAD ++ expJson e)).getD (i + 29) 0
          = (expJson e).getD (i + 29 - X.length - AAD.length) 0 := by
        rw [List.getD_eq_getElem?_getD, List.getElem?_append_right (by omega),
          List.getD_eq_getElem?_getD, List.getElem?_append_right (by omega)]
      rw [hgd]
      have hidx : i + 29 - X.length - AAD.length < (expJson e).length := by
        omega
      rw [List.getD_eq_getElem (expJson e) 0 hidx]
      exact List.getElem_mem hidx
    have := expJson_ne_61 e _ hmem
    rw [hdg, hA29] at h61
    exact this h61
  have hk : X.length ≤ (X ++ (AAD ++ expJson e)).length := by
    simp
  exact lastFindAux_eq hocc hmax _ hk

/-! ## Lemmas: cookie emission -/

theorem cookieName_inj {key : List Nat} {i i' : Nat}
    (h : cookieName key i = cookieName key i') : i = i' := by
  rw [cookieName, cookieName, List.append_assoc, List.append_assoc] at h
  have h1 := List.append_cancel_left h
  have h2 := List.append_cancel_left h1
  exact natDec_inj h2

theorem emitCookies_new {key : List Nat} {chunks : List (List Nat)}
    {prevIdx : List Nat} {i : Nat} (hi : i < chunks.length) :
    CookieOut.setVal (cookieName key i) (chunks.getD i [])
      ∈ emitCookies key chunks prevIdx := by
  rw [emitCookies]
  apply List.mem_append_left
  simp only [List.mem_map, List.mem_range]
  exact ⟨i, hi, rfl⟩

theorem emitCookies_clear {key : List Nat} {chunks : List (List Nat)}
    {prevIdx : List Nat} {i : Nat} (hmem : i ∈ prevIdx)
    (hge : chunks.length ≤ i) :
    CookieOut.clear (cookieName key i) ∈ emitCookies key chunks prevIdx := by
  rw [emitCookies]
  apply List.mem_append_right
  simp only [List.mem_map]
  refine ⟨i, ?_, rfl⟩
  rw [List.mem_filter]
  exact ⟨hmem, by simpa using hge⟩

theorem emitCookies_no_stale {key : List Nat} {chunks : List (List Nat)}
    {prevIdx : List Nat} {i : Nat} {w : List Nat} (hge : chunks.length ≤ i) :
    CookieOut.setVal (cookieName key i) w ∉ emitCookies key chunks prevIdx := by
  intro hmem
  rw [emitCookies] at hmem
  rcases List.mem_append.mp hmem with h | h
  · simp only [List.mem_map, List.mem_range] at h
    obtain ⟨i', hi', heq⟩ := h
    injection heq with hname _
    have := cookieName_inj hname
    omega
  · simp only [List.mem_map] at h
    obtain ⟨i', _, heq⟩ := h
    exact absurd heq (by simp)

/-! ## Lemmas: configuration validation -/

theorem mkConfig_ok {secret key : List Nat} {maxAge : Int} {cfg : CookieConfig}
    (h : mkCookieBackendConfig secret key maxAge = .ok cfg) :
    cfg.secret = secret ∧ cfg.key = key ∧ cfg.maxAge = maxAge.toNat ∧
      (secret.length = 16 ∨ secret.length = 24 ∨ secret.length = 32) ∧
      1 ≤ key.length ∧ key.length ≤ 256 ∧ 0 < maxAge := by
  unfold mkCookieBackendConfig at h
  split_ifs at h with h1 h2 h3
  · injection h with h
    subst h
    exact ⟨rfl, rfl, rfl, h1, h2.1, h2.2, h3⟩

/-- The text-safe chunks of an encoded byte string decode chunkwise to the
chunks of the byte string itself (even chunk size, two characters per byte). -/
theorem split_hexEncode_map_le :
    ∀ (n : Nat) (bs : List Nat), bs.length ≤ n → bytesValid bs = true →
    ∀ (k : Nat), 0 < k →
    (split (hexEncode bs) (2 * k)).map (fun ch => (hexDecode ch).getD [])
      = split bs k := by
  intro n
  induction n with
  | zero =>
    intro bs hlen _ k _
    have : bs = [] := List.length_eq_zero.mp (Nat.le_zero.mp hlen)
    subst this
    simp [hexEncode, split_nil]
  | succ n ih =>
    intro bs hlen hb k hk
    by_cases hnil : bs = []
    · subst hnil
      simp [hexEncode, split_nil]
    · have hhe : hexEncode bs ≠ [] := by
        intro hcon
        have := congrArg List.length hcon
        rw [hexEncode_length] at this
        simp at this
        exact hnil this
      rw [split_cons (by omega) hhe, split_cons hk hnil]
      rw [hexEncode_take, hexEncode_drop]
      simp only [List.map_cons]
      congr 1
      · rw [hexDecode_hexEncode (bytesValid_take hb k)]
        rfl
      · have hdlen : (bs.drop k).length ≤ n := by
          rw [List.length_drop]
          have : 1 ≤ bs.length := List.length_pos.mpr hnil
          omega
        exact ih (bs.drop k) hdlen (bytesValid_drop hb k) k hk

theorem split_hexEncode_map {bs : List Nat} (hb : bytesValid bs = true)
    {k : Nat} (hk : 0 < k) :
    (split (hexEncode bs) (2 * k)).map (fun ch => (hexDecode ch).getD [])
      = split bs k :=
  split_hexEncode_map_le bs.length bs (Nat.le_refl _) hb k hk

/-! ## The claims -/

/-- C1: for every session mapping whose values are JSON-serializable byte
data, every validly constructed configuration (secret length 16/24/32, key
length 1–256, positive max age) and every byte-string nonce, loading the
dump within `max_age` seconds of the dump returns the original mapping:
`load_data (dump_data S) = S`. -/
theorem claim_C1_roundtrip {secret key : List Nat} {maxAge : Int}
    {cfg : CookieConfig} (hcfg : mkCookieBackendConfig secret key maxAge = .ok cfg)
    {s : JObj} (hs : validJO s = true) {nonce : List Nat}
    (hsec : bytesValid secret = true) (hn : bytesValid nonce = true)
    {t now : Nat} (h1 : t ≤ now) (h2 : now ≤ t + cfg.maxAge) :
    load_data cfg (dump_data cfg s t nonce) now = .ok s := by
  obtain ⟨hcs, _⟩ := mkConfig_ok hcfg
  exact load_dump (by rw [hcs]; exact hsec) hn hs h2

set_option maxRecDepth 100000 in
theorem claim_C1_roundtrip_witness :
    mkCookieBackendConfig (List.replicate 16 0) [97] 60 = .ok sampleConfig ∧
    validJO sampleSession = true ∧
    bytesValid (List.replicate 16 0) = true ∧ bytesValid [1, 2, 3] = true ∧
    (5 : Nat) ≤ 30 ∧ (30 : Nat) ≤ 5 + sampleConfig.maxAge ∧
    load_data sampleConfig (dump_data sampleConfig sampleSession 5 [1, 2, 3]) 30
      = .ok sampleSession :=
  ⟨rfl, rfl, rfl, rfl, by omega, by decide,
    @claim_C1_roundtrip (List.replicate 16 0) [97] 60 sampleConfig rfl
      sampleSession rfl [1, 2, 3] rfl rfl 5 30 (by omega) (by decide)⟩

/-- C3: with `max_age = m`, a dump performed at time `t` loads as the empty
mapping `{}` (without raising) at every time strictly greater than `t + m`,
in particular at `t + m + 1`; the expiry comparison is strict (`now >
expiry` means expired), so loading at exactly `t + m` still returns the
original session. -/
theorem claim_C3_expiry {secret key : List Nat} {maxAge : Int}
    {cfg : CookieConfig} (hcfg : mkCookieBackendConfig secret key maxAge = .ok cfg)
    {s : JObj} (hs : validJO s = true) {nonce : List Nat}
    (hsec : bytesValid secret = true) (hn : bytesValid nonce = true) (t : Nat) :
    (∀ now, t + cfg.maxAge < now →
        load_data cfg (dump_data cfg s t nonce) now = .ok .onil)
    ∧ load_data cfg (dump_data cfg s t nonce) (t + cfg.maxAge) = .ok s := by
  obtain ⟨hcs, _⟩ := mkConfig_ok hcfg
  constructor
  · intro now hnow
    exact load_dump_expired (by rw [hcs]; exact hsec) hn hs hnow
  · exact load_dump (by rw [hcs]; exact hsec) hn hs (Nat.le_refl _)

set_option maxRecDepth 100000 in
theorem claim_C3_expiry_witness :
    mkCookieBackendConfig (List.replicate 16 0) [97] 60 = .ok sampleConfig ∧
    validJO sampleSession = true ∧
    bytesValid (List.replicate 16 0) = true ∧ bytesValid [1, 2, 3] = true ∧
    (5 : Nat) + sampleConfig.maxAge < 66 ∧
    load_data sampleConfig (dump_data sampleConfig sampleSession 5 [1, 2, 3]) 66
      = .ok .onil ∧
    load_data sampleConfig (dump_data sampleConfig sampleSession 5 [1, 2, 3])
      (5 + sampleConfig.maxAge) = .ok sampleSession :=
  ⟨rfl, rfl, rfl, rfl, by decide,
    (@claim_C3_expiry (List.replicate 16 0) [97] 60 sampleConfig rfl
      sampleSession rfl [1, 2, 3] rfl rfl 5).1 66 (by decide),
    (@claim_C3_expiry (List.replicate 16 0) [97] 60 sampleConfig rfl
      sampleSession rfl [1, 2, 3] rfl rfl 5).2⟩

/-- C5: constructing the configuration succeeds iff the secret length is 16,
24 or 32 bytes, the key length is between 1 and 256 inclusive, and the max
age is strictly positive; otherwise it fails — at construction time, since
`mkCookieBackendConfig` is the only entry point producing a `CookieConfig` —
with `ImproperlyConfigured`. -/
theorem claim_C5_config_validation (secret key : List Nat) (maxAge : Int) :
    ((∃ cfg, mkCookieBackendConfig secret key maxAge = .ok cfg)
      ↔ ((secret.length = 16 ∨ secret.length = 24 ∨ secret.length = 32)
          ∧ (1 ≤ key.length ∧ key.length ≤ 256) ∧ 0 < maxAge))
    ∧ (mkCookieBackendConfig secret key maxAge = .error .improperlyConfigured
      ↔ ¬((secret.length = 16 ∨ secret.length = 24 ∨ secret.length = 32)
          ∧ (1 ≤ key.length ∧ key.length ≤ 256) ∧ 0 < maxAge)) := by
  unfold mkCookieBackendConfig
  split_ifs with h1 h2 h3
  · refine ⟨⟨fun _ => ⟨h1, h2, h3⟩, fun _ => ⟨_, rfl⟩⟩, ?_, ?_⟩
    · intro hcon
      exact absurd hcon (by simp)
    · intro hcon
      exact absurd ⟨h1, h2, h3⟩ hcon
  · refine ⟨⟨?_, ?_⟩, fun _ => ?_, fun _ => rfl⟩
    · intro ⟨cfg, hcfg⟩
      exact absurd hcfg (by simp)
    · intro ⟨_, _, hm⟩
      exact absurd hm h3
    · intro ⟨_, _, hm⟩
      exact h3 hm
  · refine ⟨⟨?_, ?_⟩, fun _ => ?_, fun _ => rfl⟩
    · intro ⟨cfg, hcfg⟩
      exact absurd hcfg (by simp)
    · intro ⟨_, hk, _⟩
      exact absurd hk h2
    · intro ⟨_, hk, _⟩
      exact h2 hk
  · refine ⟨⟨?_, ?_⟩, fun _ => ?_, fun _ => rfl⟩
    · intro ⟨cfg, hcfg⟩
      exact absurd hcfg (by simp)
    · intro ⟨hsec, _⟩
      exact absurd hsec h1
    · intro ⟨hsec, _⟩
      exact h1 hsec

/-- C6: for every byte blob and positive chunk size, `split` produces exactly
`⌈B / C⌉` consecutive pieces each of length at most `C` with only the last
possibly shorter, `join` of the split recovers the blob, and `dump_data`
correspondingly produces `⌈B / CHUNK_SIZE⌉` chunks each at most `CHUNK_SIZE`
bytes, `B` being the size of the encoded encrypted blob. -/
theorem claim_C6_chunking (bs : List Nat) (c : Nat) (hc : 0 < c) :
    join (split bs c) = bs
    ∧ (split bs c).length = (bs.length + c - 1) / c
    ∧ (∀ piece ∈ split bs c, piece.length ≤ c)
    ∧ (∀ i, i + 1 < (split bs c).length → ((split bs c).getD i []).length = c)
    ∧ (∀ (cfg : CookieConfig) (s : JObj) (t : Nat) (nonce : List Nat),
        (dump_data cfg s t nonce).length
          = ((hexEncode (sessionBlob cfg s t nonce)).length + CHUNK_SIZE - 1)
              / CHUNK_SIZE
        ∧ ∀ piece ∈ dump_data cfg s t nonce, piece.length ≤ CHUNK_SIZE) := by
  refine ⟨join_split hc bs, split_length bs c, split_piece_le,
    fun i hi => split_piece_full hc hi, fun cfg s t nonce => ⟨?_, ?_⟩⟩
  · rw [dump_data, split_length]
  · rw [dump_data]
    exact split_piece_le

set_option maxRecDepth 100000 in
theorem claim_C6_chunking_witness :
    (0 : Nat) < 2 ∧
    join (split [7, 8, 9, 10, 11] 2) = [7, 8, 9, 10, 11] ∧
    (split [7, 8, 9, 10, 11] 2).length = 3 ∧
    (dump_data sampleConfig sampleSession 5 [1, 2, 3]).length
      = ((hexEncode (sessionBlob sampleConfig sampleSession 5 [1, 2, 3])).length
          + CHUNK_SIZE - 1) / CHUNK_SIZE := by
  have h := claim_C6_chunking [7, 8, 9, 10, 11] 2 (by omega)
  exact ⟨by omega, h.1, h.2.1, (h.2.2.2.2 sampleConfig sampleSession 5 [1, 2, 3]).1⟩

set_option maxRecDepth 100000 in
/-- C2 counterexample: flipping byte 5 of chunk 0 of a genuine dump to byte
42 (`*`, not in the transport alphabet) is a single-byte chunk modification,
yet `load_data` returns the empty session rather than raising
`AuthenticationError` — the undecodable cookie is treated as malformed
(quiet), refuting the claim as universally stated. -/
theorem claim_C2_counterexample :
    0 < (dump_data sampleConfig sampleSession 5 [1, 2, 3]).length ∧
    5 < ((dump_data sampleConfig sampleSession 5 [1, 2, 3]).getD 0 []).length ∧
    (42 : Nat) ≠ ((dump_data sampleConfig sampleSession 5 [1, 2, 3]).getD 0 []).getD 5 0 ∧
    load_data sampleConfig
      (setByte (dump_data sampleConfig sampleSession 5 [1, 2, 3]) 0 5 42) 30
      = .ok .onil :=
  ⟨by decide, by decide, by decide, rfl⟩

/-- C2 (amended): a single-byte flip in any chunk of a dump makes
`load_data` either raise `AuthenticationError` (always, when the flip keeps
the blob decodable with its trailer intact) or return the empty mapping
(when it destroys the transport encoding or the cleartext trailer) — never
return a session with altered data; and replacing the associated-data region
of the decoded blob with a different well-formed expiry object always raises
`AuthenticationError`. -/
theorem claim_C2_tamper_detection {cfg : CookieConfig} {s : JObj} {t : Nat}
    {nonce : List Nat} (hsec : bytesValid cfg.secret = true)
    (hn : bytesValid nonce = true) (hs : validJO s = true) (now : Nat) :
    (∀ j p v, j < (dump_data cfg s t nonce).length →
      p < ((dump_data cfg s t nonce).getD j []).length →
      v ≠ ((dump_data cfg s t nonce).getD j []).getD p 0 →
      load_data cfg (setByte (dump_data cfg s t nonce) j p v) now
          = .error .invalidTag
        ∨ load_data cfg (setByte (dump_data cfg s t nonce) j p v) now
          = .ok .onil)
    ∧ (∀ j p v, j < (dump_data cfg s t nonce).length →
      p < ((dump_data cfg s t nonce).getD j []).length →
      v ≠ ((dump_data cfg s t nonce).getD j []).getD p 0 →
      ∀ blob' encPart aadBytes expiry,
        hexDecode (join (setByte (dump_data cfg s t nonce) j p v)) = some blob' →
        parseTrailer blob' = some (encPart, aadBytes, expiry) →
        load_data cfg (setByte (dump_data cfg s t nonce) j p v) now
          = .error .invalidTag)
    ∧ (∀ e', e' ≠ t + cfg.maxAge →
      load_data cfg (split (hexEncode
        (encrypt cfg.secret nonce (encode s) (expJson (t + cfg.maxAge)) ++
          (AAD ++ expJson e'))) CHUNK_SIZE) now = .error .invalidTag) := by
  refine ⟨?_, ?_, fun _ hne => load_aad_replaced hsec hn hs hne now⟩
  · intro j p v hj hp hv
    rcases load_tampered hj hp hv now with h | ⟨h, _⟩
    · exact Or.inl h
    · exact Or.inr h
  · intro j p v hj hp hv blob' encPart aadBytes expiry hdec hpar
    rcases load_tampered hj hp hv now with h | ⟨_, hnone⟩
    · exact h
    · rw [hnone blob' hdec] at hpar
      exact absurd hpar (by simp)

set_option maxRecDepth 100000 in
theorem claim_C2_tamper_detection_witness :
    bytesValid sampleConfig.secret = true ∧ bytesValid [1, 2, 3] = true ∧
    validJO sampleSession = true ∧ (1000 : Nat) ≠ 5 + sampleConfig.maxAge ∧
    (load_data sampleConfig
        (setByte (dump_data sampleConfig sampleSession 5 [1, 2, 3]) 0 5 48) 30
        = .error .invalidTag
      ∨ load_data sampleConfig
        (setByte (dump_data sampleConfig sampleSession 5 [1, 2, 3]) 0 5 48) 30
        = .ok .onil) ∧
    load_data sampleConfig (split (hexEncode
      (encrypt sampleConfig.secret [1, 2, 3] (encode sampleSession)
        (expJson (5 + sampleConfig.maxAge)) ++
        (AAD ++ expJson 1000))) CHUNK_SIZE) 30 = .error .invalidTag :=
  ⟨rfl, rfl, rfl, by decide,
    (@claim_C2_tamper_detection sampleConfig sampleSession 5 [1, 2, 3]
      rfl rfl rfl 30).1 0 5 48 (by decide) (by decide) (by decide),
    (@claim_C2_tamper_detection sampleConfig sampleSession 5 [1, 2, 3]
      rfl rfl rfl 30).2.2 1000 (by decide)⟩

/-- C4: `load_data` returns the empty mapping without raising when the
chunks are absent, when the joined text is undecodable, when the cleartext
trailer is missing or malformed, when the embedded expiry has passed, and
when the decrypted payload fails deserialization (the `DecodeError` case);
it raises if and only if the located trailer's encrypted region fails
authenticated decryption, the only error being the invalid-tag
`AuthenticationError`; and on a genuine dump the result is all-or-nothing —
the full original mapping or exactly the empty one. -/
theorem claim_C4_failure_policy (cfg : CookieConfig) :
    (∀ now, load_data cfg [] now = .ok .onil)
    ∧ (∀ chunks now, hexDecode (join chunks) = none →
        load_data cfg chunks now = .ok .onil)
    ∧ (∀ chunks now blob, hexDecode (join chunks) = some blob →
        parseTrailer blob = none → load_data cfg chunks now = .ok .onil)
    ∧ (∀ chunks now blob encPart aadBytes expiry pt,
        hexDecode (join chunks) = some blob →
        parseTrailer blob = some (encPart, aadBytes, expiry) →
        decrypt cfg.secret encPart aadBytes = some pt →
        expiry < now → load_data cfg chunks now = .ok .onil)
    ∧ (∀ chunks now blob encPart aadBytes expiry pt,
        hexDecode (join chunks) = some blob →
        parseTrailer blob = some (encPart, aadBytes, expiry) →
        decrypt cfg.secret encPart aadBytes = some pt →
        ¬ expiry < now → decode pt = none →
        load_data cfg chunks now = .ok .onil)
    ∧ (∀ chunks now, (∃ err, load_data cfg chunks now = .error err)
        ↔ (∃ blob encPart aadBytes expiry,
            hexDecode (join chunks) = some blob ∧
            parseTrailer blob = some (encPart, aadBytes, expiry) ∧
            decrypt cfg.secret encPart aadBytes = none))
    ∧ (∀ chunks now err, load_data cfg chunks now = .error err →
        err = .invalidTag)
    ∧ (∀ (s : JObj) (t : Nat) (nonce : List Nat) (now : Nat),
        bytesValid cfg.secret = true → bytesValid nonce = true →
        validJO s = true →
        load_data cfg (dump_data cfg s t nonce) now = .ok s
        ∨ load_data cfg (dump_data cfg s t nonce) now = .ok .onil) :=
  ⟨fun now => load_nil cfg now,
   fun _ _ h => load_undecodable h,
   fun _ _ _ h h2 => load_no_trailer h h2,
   fun _ _ _ _ _ _ _ h1 h2 h3 h4 => load_expired_any h1 h2 h3 h4,
   fun _ _ _ _ _ _ _ h1 h2 h3 h4 h5 => load_decode_fail h1 h2 h3 h4 h5,
   fun chunks now => load_error_iff cfg chunks now,
   fun _ _ err _ => by cases err; rfl,
   fun _ _ _ now hsec hn hs => load_dump_cases hsec hn hs now⟩

set_option maxRecDepth 100000 in
theorem claim_C4_failure_policy_witness :
    load_data sampleConfig [] 0 = .ok .onil ∧
    (bytesValid sampleConfig.secret = true ∧ bytesValid [1, 2, 3] = true ∧
      validJO sampleSession = true) ∧
    (load_data sampleConfig (dump_data sampleConfig sampleSession 5 [1, 2, 3]) 100
        = .ok sampleSession
      ∨ load_data sampleConfig (dump_data sampleConfig sampleSession 5 [1, 2, 3]) 100
        = .ok .onil) :=
  ⟨(claim_C4_failure_policy sampleConfig).1 0, ⟨rfl, rfl, rfl⟩,
    (claim_C4_failure_policy sampleConfig).2.2.2.2.2.2.2 sampleSession 5 [1, 2, 3]
      100 rfl rfl rfl⟩

/-- C7: after a dump of `N₂` chunks when indices `0 … N₁-1` were previously
present with `N₂ < N₁`, the outbound emission sets cookies `{key}-0 …
{key}-(N₂-1)` to the new chunk values, sets every previously-present index
`N₂ … N₁-1` to an expiring value, and emits no non-expiring value for any
index at or beyond `N₂`, so no stale chunk cookie persists. -/
theorem claim_C7_stale_cleanup (key : List Nat) (chunks : List (List Nat))
    (N₁ : Nat) (hlt : chunks.length < N₁) :
    (∀ i, i < chunks.length →
        CookieOut.setVal (cookieName key i) (chunks.getD i [])
          ∈ emitCookies key chunks (List.range N₁))
    ∧ (∀ i, chunks.length ≤ i → i < N₁ →
        CookieOut.clear (cookieName key i)
          ∈ emitCookies key chunks (List.range N₁))
    ∧ (∀ i w, chunks.length ≤ i →
        CookieOut.setVal (cookieName key i) w
          ∉ emitCookies key chunks (List.range N₁)) :=
  ⟨fun _ hi => emitCookies_new hi,
   fun _ hge hlt2 => emitCookies_clear (List.mem_range.mpr hlt2) hge,
   fun _ _ hge => emitCookies_no_stale hge⟩

theorem claim_C7_stale_cleanup_witness :
    ([[1], [2]] : List (List Nat)).length < 4 ∧
    CookieOut.setVal (cookieName [97] 0) [1]
      ∈ emitCookies [97] [[1], [2]] (List.range 4) ∧
    CookieOut.clear (cookieName [97] 2)
      ∈ emitCookies [97] [[1], [2]] (List.range 4) ∧
    CookieOut.clear (cookieName [97] 3)
      ∈ emitCookies [97] [[1], [2]] (List.range 4) ∧
    CookieOut.setVal (cookieName [97] 2) [9]
      ∉ emitCookies [97] [[1], [2]] (List.range 4) :=
  ⟨by decide,
    (claim_C7_stale_cleanup [97] [[1], [2]] 4 (by decide)).1 0 (by decide),
    (claim_C7_stale_cleanup [97] [[1], [2]] 4 (by decide)).2.1 2 (by decide) (by decide),
    (claim_C7_stale_cleanup [97] [[1], [2]] 4 (by decide)).2.1 3 (by decide) (by decide),
    (claim_C7_stale_cleanup [97] [[1], [2]] 4 (by decide)).2.2 2 [9] (by decide)⟩

/-- C8: under an ideal cryptographically secure nonce source (byte-string
draws that never repeat), two independent calls to `dump_data` with
identical session, time and configuration draw distinct nonces and produce
distinct ciphertext chunk sequences — the blob embeds its nonce injectively,
preserving confidentiality under repeated identical dumps. -/
theorem claim_C8_nonce_freshness (src : NonceSource) (cfg : CookieConfig)
    (s : JObj) (t : Nat) (i j : Nat) (hij : i ≠ j) :
    src.draw i ≠ src.draw j ∧
    dump_data cfg s t (src.draw i) ≠ dump_data cfg s t (src.draw j) :=
  ⟨src.draw_fresh i j hij, dump_nonce_ne (src.draw_fresh i j hij)⟩

set_option maxRecDepth 100000 in
theorem claim_C8_nonce_freshness_witness :
    (0 : Nat) ≠ 1 ∧
    digitsOf 255 0 ≠ digitsOf 255 1 ∧
    dump_data sampleConfig sampleSession 5 (digitsOf 255 0)
      ≠ dump_data sampleConfig sampleSession 5 (digitsOf 255 1) := by
  have h := claim_C8_nonce_freshness
    ⟨fun i => digitsOf 255 i,
      fun i => by
        simp only [bytesValid, List.all_eq_true, decide_eq_true_eq]
        intro b hb
        have := digitsOf_lt (b := 255) (by omega) b hb
        omega,
      fun i j hij hcon => hij (by
        have hcon' : digitsOf 255 i = digitsOf 255 j := hcon
        have hi := digitsOf_val (b := 255) (n := i) (by omega)
        have hj := digitsOf_val (b := 255) (n := j) (by omega)
        rw [← hi, ← hj, hcon'])⟩
    sampleConfig sampleSession 5 0 1 (by omega)
  exact ⟨by omega, h.1, h.2⟩

/-- C9: each emitted cookie is named `{key}-{i}` — ASCII hyphen, decimal
index starting at 0 with no leading zeros — and its value is the text-safe
(base16) encoding of one purely byte-length-determined chunk of the
ciphertext blob; each chunk individually decodes to its slice of the blob,
and joining the decoded chunks in index order recovers the blob. -/
theorem claim_C9_wire_format {cfg : CookieConfig} {s : JObj} {t : Nat}
    {nonce : List Nat} (hsec : bytesValid cfg.secret = true)
    (hn : bytesValid nonce = true) (hs : validJO s = true)
    (prevIdx : List Nat) :
    (∀ i, i < (dump_data cfg s t nonce).length →
        CookieOut.setVal (cfg.key ++ [45] ++ natDec i)
            ((dump_data cfg s t nonce).getD i [])
          ∈ emitCookies cfg.key (dump_data cfg s t nonce) prevIdx)
    ∧ natDec 0 = [48]
    ∧ (∀ i, (natDec i).getD 0 0 = 48 → i = 0)
    ∧ (∀ i, i < (dump_data cfg s t nonce).length →
        (dump_data cfg s t nonce).getD i []
            = hexEncode (((sessionBlob cfg s t nonce).drop (i * 2048)).take 2048)
        ∧ hexDecode ((dump_data cfg s t nonce).getD i [])
            = some (((sessionBlob cfg s t nonce).drop (i * 2048)).take 2048))
    ∧ (dump_data cfg s t nonce).map (fun ch => (hexDecode ch).getD [])
        = split (sessionBlob cfg s t nonce) 2048
    ∧ join (split (sessionBlob cfg s t nonce) 2048)
        = sessionBlob cfg s t nonce := by
  have hbv := @sessionBlob_bytes cfg s t nonce hsec hn hs
  refine ⟨fun i hi => emitCookies_new hi, rfl,
    fun i h => natDec_head_eq_48 h, fun i hi => ?_, ?_, join_split (by omega) _⟩
  · have hc := dump_chunk_eq hi
    refine ⟨hc, ?_⟩
    rw [hc]
    exact hexDecode_hexEncode (bytesValid_take (bytesValid_drop hbv _) _)
  · rw [dump_data, show CHUNK_SIZE = 2 * 2048 from rfl]
    exact split_hexEncode_map hbv (by omega)

set_option maxRecDepth 100000 in
theorem claim_C9_wire_format_witness :
    bytesValid sampleConfig.secret = true ∧ bytesValid [1, 2, 3] = true ∧
    validJO sampleSession = true ∧
    (dump_data sampleConfig sampleSession 5 [1, 2, 3]).map
        (fun ch => (hexDecode ch).getD [])
      = split (sessionBlob sampleConfig sampleSession 5 [1, 2, 3]) 2048 ∧
    CookieOut.setVal (sampleConfig.key ++ [45] ++ natDec 0)
        ((dump_data sampleConfig sampleSession 5 [1, 2, 3]).getD 0 [])
      ∈ emitCookies sampleConfig.key
          (dump_data sampleConfig sampleSession 5 [1, 2, 3]) [] :=
  ⟨rfl, rfl, rfl,
    (@claim_C9_wire_format sampleConfig sampleSession 5 [1, 2, 3]
      rfl rfl rfl []).2.2.2.2.1,
    (@claim_C9_wire_format sampleConfig sampleSession 5 [1, 2, 3]
      rfl rfl rfl []).1 0 (by decide)⟩

/-- C10: the decoded concatenation of a dump's chunks contains, in
cleartext, the literal AAD tag followed by the JSON object
`{"expires_at": <t + max_age>}` as its trailing region; the region is
locatable by searching for the last occurrence of the tag, and both the
search (`lastFind`) and the trailer parse (`parseTrailer`) take no secret,
so any party can read the expiry without key material. -/
theorem claim_C10_cleartext_aad {cfg : CookieConfig} {s : JObj} {t : Nat}
    {nonce : List Nat} (hsec : bytesValid cfg.secret = true)
    (hn : bytesValid nonce = true) (hs : validJO s = true) :
    ∃ X, hexDecode (join (dump_data cfg s t nonce))
        = some (X ++ (AAD ++ expJson (t + cfg.maxAge)))
    ∧ expJson (t + cfg.maxAge)
        = expiresLit ++ natDec (t + cfg.maxAge) ++ [125]
    ∧ lastFind AAD (X ++ (AAD ++ expJson (t + cfg.maxAge))) = some X.length
    ∧ parseTrailer (X ++ (AAD ++ expJson (t + cfg.maxAge)))
        = some (X, expJson (t + cfg.maxAge), t + cfg.maxAge) := by
  refine ⟨encrypt cfg.secret nonce (encode s) (expJson (t + cfg.maxAge)),
    ?_, by rw [expJson], lastFind_AAD _ _, parseTrailer_expJson _ _⟩
  rw [dump_join, hexDecode_hexEncode (sessionBlob_bytes hsec hn hs)]
  rw [show sessionBlob cfg s t nonce
      = encrypt cfg.secret nonce (encode s) (expJson (t + cfg.maxAge)) ++
          (AAD ++ expJson (t + cfg.maxAge)) from by simp [sessionBlob]]

set_option maxRecDepth 100000 in
theorem claim_C10_cleartext_aad_witness :
    bytesValid sampleConfig.secret = true ∧ bytesValid [1, 2, 3] = true ∧
    validJO sampleSession = true ∧
    (∃ X, hexDecode (join (dump_data sampleConfig sampleSession 5 [1, 2, 3]))
        = some (X ++ (AAD ++ expJson (5 + sampleConfig.maxAge)))
    ∧ expJson (5 + sampleConfig.maxAge)
        = expiresLit ++ natDec (5 + sampleConfig.maxAge) ++ [125]
    ∧ lastFind AAD (X ++ (AAD ++ expJson (5 + sampleConfig.maxAge)))
        = some X.length
    ∧ parseTrailer (X ++ (AAD ++ expJson (5 + sampleConfig.maxAge)))
        = some (X, expJson (5 + sampleConfig.maxAge), 5 + sampleConfig.maxAge)) :=
  ⟨rfl, rfl, rfl,
    @claim_C10_cleartext_aad sampleConfig sampleSession 5 [1, 2, 3] rfl rfl rfl⟩

end StarliteSession
